import Mathlib

set_option maxRecDepth 100000
set_option maxHeartbeats 1000000

/-!
# Verification of the `deluge` rencode codec

A shallow embedding of `src/rencode.rs` (the `Encoder`, i.e. the serialization
side), `src/rencode/decoder.rs` (the `Decoder`), and `src/rencode/value.rs`
(the generic `Value` type and its serde glue), together with proofs about the
encode/decode pair.

Bytes are modelled as `Nat` (always `< 256` when produced by the encoder),
byte buffers as `List Nat`, Rust `i64` as `Int` with explicit two's-complement
wrapping where the code wraps, `f64`/`f32` payloads as their IEEE-754 bit
patterns (a `Nat`), Rust `String` as its UTF-8 byte list, `Vec<Value>` as
`List Value` and `BTreeMap<String, Value>` as a strictly-key-sorted
association list built by repeated insertion (mirroring `BTreeMap::insert`).

The decoder in the source is driven by serde 0.x: `Value` deserialization is
`Decoder::visit(ValueVisitor)`, lists are collected by `de::impls::VecVisitor`
(repeated `SeqVisitor::visit` until `None`, then `SeqVisitor::end`), maps by
`de::impls::BTreeMapVisitor` (repeated `visit_key`/`visit_value`, inserting
each pair, then `end`), and `String` keys by the string visitor that accepts
only `visit_str`/`visit_string` and rejects every other arrival with a syntax
error. That driving glue is embedded here as explicit recursion. The Rust
loops carry no fuel; the Lean functions take an explicit fuel argument and
return the marker error `Err.endOfStream` on exhaustion (no modelled code
path produces `EndOfStream` otherwise, so that outcome only means the model
ran out of fuel, never a behaviour of the program).
-/

namespace Rencode

/-! ## Byte-level helpers (big-endian integers, ASCII decimal lengths) -/

/-- Big-endian bytes of `n`, exactly `w` bytes wide (truncates above `256^w`),
as written by `byteorder::BigEndian` write calls. -/
def natToBEBytes : Nat → Nat → List Nat
  | 0, _ => []
  | w + 1, n => natToBEBytes w (n / 256) ++ [n % 256]

/-- Big-endian value of a byte list, as read by `byteorder::BigEndian`. -/
def beBytesToNat (bs : List Nat) : Nat := bs.foldl (fun acc b => acc * 256 + b) 0

/-- Two's-complement big-endian encoding of `v` in `w` bytes, as written by
`write_i8` / `write_i16` / `write_i32` / `write_i64`. -/
def intToBE (w : Nat) (v : Int) : List Nat :=
  natToBEBytes w (v.emod ((256 : Int) ^ w)).toNat

/-- Two's-complement big-endian decoding of `w` bytes, as read by
`read_i8` / `read_i16` / `read_i32` / `read_i64`. -/
def intFromBE (w : Nat) (bs : List Nat) : Int :=
  let n := beBytesToNat bs
  if 2 * n < 256 ^ w then (n : Int) else (n : Int) - ((256 : Int) ^ w)

/-- ASCII decimal digits of `n` (fuelled helper; `fuel > 0` and
`fuel` at least the digit count make it total in practice). -/
def asciiDigitsAux : Nat → Nat → List Nat
  | 0, _ => []
  | fuel + 1, n => if n < 10 then [48 + n] else asciiDigitsAux fuel (n / 10) ++ [48 + n % 10]

/-- ASCII decimal representation of `n`, as produced by `write!("{}", n)`. -/
def asciiDigitsOf (n : Nat) : List Nat := asciiDigitsAux (n + 1) n

/-- Value of a list of ASCII digit bytes. -/
def digitsToNat (l : List Nat) : Nat := l.foldl (fun acc b => acc * 10 + (b - 48)) 0

/-- Models `str::parse::<usize>` on the UTF-8 bytes `l`: succeeds exactly
when `l` is a nonempty run of ASCII digits. -/
def parseUsize (l : List Nat) : Option Nat :=
  if l ≠ [] ∧ l.all (fun b => 48 ≤ b && b ≤ 57) then some (digitsToNat l) else none

/-! ## Key order and `BTreeMap` model -/

/-- Lexicographic byte comparison: the `Ord` used by Rust `String` keys in
`BTreeMap<String, Value>` (strings compare as their UTF-8 bytes). -/
def lexCmp : List Nat → List Nat → Ordering
  | [], [] => .eq
  | [], _ :: _ => .lt
  | _ :: _, [] => .gt
  | a :: l1, b :: l2 => if a < b then .lt else if b < a then .gt else lexCmp l1 l2

/-! ## The generic `Value` type (`src/rencode/value.rs`) -/

/-- `value.rs` `Value`: `None / I64 / U64 / F64 / Bool / String / List / Dict`.
`f64` carries the IEEE-754 bit pattern; `str` the UTF-8 bytes; `dict` the
`BTreeMap` contents as a strictly-key-sorted association list. -/
inductive Value where
  | none
  | i64 (v : Int)
  | u64 (v : Nat)
  | f64 (bits : Nat)
  | bool (b : Bool)
  | str (s : List Nat)
  | list (xs : List Value)
  | dict (kvs : List (List Nat × Value))

/-- `BTreeMap::insert` on the sorted-association-list model: keeps keys
strictly ascending, replaces the value on an equal key. -/
def btreeInsert (k : List Nat) (v : Value) : List (List Nat × Value) → List (List Nat × Value)
  | [] => [(k, v)]
  | (k2, v2) :: rest =>
    match lexCmp k k2 with
    | .lt => (k, v) :: (k2, v2) :: rest
    | .eq => (k, v) :: rest
    | .gt => (k2, v2) :: btreeInsert k v rest

/-- Build a `BTreeMap` by inserting the pairs left to right (the loop of
serde's `BTreeMapVisitor`, and `HashMap`-to-`BTreeMap` style construction). -/
def mkBTree (kvs : List (List Nat × Value)) : List (List Nat × Value) :=
  kvs.foldl (fun acc kv => btreeInsert kv.1 kv.2 acc) []

/-- `BTreeMap::get`: association lookup by key. -/
def alookup (k : List Nat) : List (List Nat × Value) → Option Value
  | [] => none
  | (k2, v) :: rest => if k = k2 then some v else alookup k rest

/-- Strict key order on map entries (the order in which `BTreeMap` iterates). -/
def entryLt (p q : List Nat × Value) : Prop := lexCmp p.1 q.1 = Ordering.lt

/-! ## The encoder (`src/rencode.rs`, `impl Serializer for Encoder`) -/

/-- `Encoder::visit_bool`: `TRUE` (67) / `FALSE` (68). -/
def visit_bool (b : Bool) : List Nat := [if b then 67 else 68]

/-- `Encoder::visit_none`: `NONE` (69). -/
def visit_none : List Nat := [69]

/-- `Encoder::visit_i64`. The source's arms, in order:
`INT_NEG_FIXED_COUNT...-1` (i.e. `-32..=-1`) writes the single byte
`INT_NEG_FIXED_START - 1 - v = 69 - v`; `0...INT_POS_FIXED_COUNT` — an
*inclusive* range pattern with `INT_POS_FIXED_COUNT = 44`, so `0..=44` —
writes the single byte `v`; then the `i8` / `i16` / `i32` ranges with their
width typecode; else the `i64` form. -/
def visit_i64 (v : Int) : List Nat :=
  if -32 ≤ v ∧ v ≤ -1 then [(69 - v).toNat]
  else if 0 ≤ v ∧ v ≤ 44 then [v.toNat]
  else if -128 ≤ v ∧ v ≤ 127 then 62 :: intToBE 1 v
  else if -32768 ≤ v ∧ v ≤ 32767 then 63 :: intToBE 2 v
  else if -2147483648 ≤ v ∧ v ≤ 2147483647 then 64 :: intToBE 4 v
  else 65 :: intToBE 8 v

/-- Rust `v as i64` on a `u64`: reinterpret the 64-bit pattern as signed. -/
def u64AsI64 (v : Nat) : Int :=
  if v < 2 ^ 63 then (v : Int) else (v : Int) - 2 ^ 64

/-- `Encoder::visit_u64`: forwards to `visit_i64(v as i64)`. -/
def visit_u64 (v : Nat) : List Nat := visit_i64 (u64AsI64 v)

/-- `Encoder::visit_f64`: byte `F64` (44) then the 8 big-endian bytes of the
IEEE-754 bit pattern. -/
def visit_f64 (bits : Nat) : List Nat := 44 :: natToBEBytes 8 bits

/-- `Encoder::visit_f32`: byte `F32` (66) then the 4 big-endian bytes of the
IEEE-754 single-precision bit pattern. -/
def visit_f32 (bits : Nat) : List Nat := 66 :: natToBEBytes 4 bits

/-- `Encoder::visit_str`: byte length `< STR_FIXED_COUNT` (64) uses the fixed
header `STR_FIXED_START + len` (128 + len) then the raw bytes; otherwise
`write!("{}:{}", len, s)` — ASCII decimal length, `:` (58), raw bytes. -/
def visit_str (s : List Nat) : List Nat :=
  if s.length < 64 then (128 + s.length) :: s
  else asciiDigitsOf s.length ++ 58 :: s

/-- `Encoder::visit_seq`: known length `< LIST_FIXED_COUNT` (64) emits header
`LIST_FIXED_START + len` (192 + len) and the elements; a known larger length
or an unknown length emits `LIST` (59), the elements, then `TERM` (127). -/
def visit_seq (len : Option Nat) (body : List Nat) : List Nat :=
  match len with
  | some n => if n < 64 then (192 + n) :: body else 59 :: body ++ [127]
  | none => 59 :: body ++ [127]

/-- `Encoder::visit_map`: known length `< DICT_FIXED_COUNT` (25) emits header
`DICT_FIXED_START + len` (102 + len) and the entries; otherwise `DICT` (60),
the entries, then `TERM` (127). Each entry is written key then value
(`visit_map_elt`). -/
def visit_map (len : Option Nat) (body : List Nat) : List Nat :=
  match len with
  | some n => if n < 25 then (102 + n) :: body else 60 :: body ++ [127]
  | none => 60 :: body ++ [127]

mutual
/-- `encode` of a `Value` (`rencode::encode` with `Value`'s `Serialize` impl,
which visits each variant with the corresponding `Encoder` method; lists and
dicts report their exact length through `SeqVisitor::len`/`MapVisitor::len`). -/
def encode : Value → List Nat
  | .none => visit_none
  | .i64 v => visit_i64 v
  | .u64 v => visit_u64 v
  | .f64 bits => visit_f64 bits
  | .bool b => visit_bool b
  | .str s => visit_str s
  | .list xs => visit_seq (some xs.length) (encodeList xs)
  | .dict kvs => visit_map (some kvs.length) (encodeKVs kvs)

/-- Elements of a sequence, encoded back to back (`SeqSerializer`). -/
def encodeList : List Value → List Nat
  | [] => []
  | x :: r => encode x ++ encodeList r

/-- Entries of a map, each written key then value (`MapSerializer` with
`visit_map_elt`), in the `BTreeMap`'s ascending key order. -/
def encodeKVs : List (List Nat × Value) → List Nat
  | [] => []
  | (k, v) :: r => visit_str k ++ encode v ++ encodeKVs r
end

/-! ## Well-formedness of a `Value`

`WFb` says the Lean `Value` denotes an actual Rust `Value`: integers in the
`i64` range, bit patterns and `u64` within 64 bits, string bytes within a
byte, and dictionary keys strictly ascending (the `BTreeMap` invariant). -/

/-- Strictly ascending keys: the `BTreeMap` iteration-order invariant. -/
def keysAscendingb : List (List Nat × Value) → Bool
  | [] => true
  | [_] => true
  | p :: q :: r => decide (lexCmp p.1 q.1 = Ordering.lt) && keysAscendingb (q :: r)

mutual
/-- Well-formedness of a `Value` (see section comment). -/
def WFb : Value → Bool
  | .none => true
  | .i64 v => decide (-(2 ^ 63) ≤ v) && decide (v < 2 ^ 63)
  | .u64 v => decide (v < 2 ^ 64)
  | .f64 bits => decide (bits < 2 ^ 64)
  | .bool _ => true
  | .str s => s.all (fun b => decide (b < 256))
  | .list xs => WFbList xs
  | .dict kvs => keysAscendingb kvs && WFbKVs kvs

/-- All elements well-formed. -/
def WFbList : List Value → Bool
  | [] => true
  | x :: r => WFb x && WFbList r

/-- All keys byte-valued and all values well-formed. -/
def WFbKVs : List (List Nat × Value) → Bool
  | [] => true
  | (k, v) :: r => k.all (fun b => decide (b < 256)) && WFb v && WFbKVs r
end

mutual
/-- No `U64` node anywhere in the value tree. -/
def noU64 : Value → Bool
  | .u64 _ => false
  | .list xs => noU64List xs
  | .dict kvs => noU64KVs kvs
  | _ => true

/-- No `U64` node in any element. -/
def noU64List : List Value → Bool
  | [] => true
  | x :: r => noU64 x && noU64List r

/-- No `U64` node in any entry's value. -/
def noU64KVs : List (List Nat × Value) → Bool
  | [] => true
  | (_, v) :: r => noU64 v && noU64KVs r
end

mutual
/-- The tree contains no `U64` node and no integer node equal to `44`:
the two shapes whose encoding the decoder does not map back to the same
`Value` (`U64` decodes as `I64`; `44` hits the encoder's inclusive
`0...44` range arm and is emitted as the raw byte 44, the `F64` typecode). -/
def roundSafe : Value → Bool
  | .u64 _ => false
  | .i64 v => decide (v ≠ 44)
  | .list xs => roundSafeList xs
  | .dict kvs => roundSafeKVs kvs
  | _ => true

/-- `roundSafe` for every element. -/
def roundSafeList : List Value → Bool
  | [] => true
  | x :: r => roundSafe x && roundSafeList r

/-- `roundSafe` for every entry's value. -/
def roundSafeKVs : List (List Nat × Value) → Bool
  | [] => true
  | (_, v) :: r => roundSafe v && roundSafeKVs r
end

/-! ## The decoder (`src/rencode/decoder.rs`) -/

/-- The decoder's `Error` enum. `malformed` models `Syntax(String)` (the
message is dropped); `endOfStream` doubles as the model's fuel-exhaustion
marker (see the file comment). -/
inductive Err where
  | endOfStream
  | endOfStruct
  | fromUtf8
  | ioError
  | missingField
  | parseIntError
  | malformed
  | unexpectedEOF
  | unknownField
deriving Repr, DecidableEq

/-- `struct Decoder`: the byte source (`reader`, its unread bytes) and the
one-byte lookahead buffer (`peek`). -/
structure Decoder where
  peek : Option Nat
  input : List Nat
deriving Repr, DecidableEq

/-- `Decoder::next`: take the peeked byte if present, else `read_u8` from the
reader (`UnexpectedEOF` on an exhausted source). -/
def dnext (d : Decoder) : Except Err Nat × Decoder :=
  match d.peek with
  | some b => (.ok b, ⟨none, d.input⟩)
  | none =>
    match d.input with
    | [] => (.error .unexpectedEOF, d)
    | b :: rest => (.ok b, ⟨none, rest⟩)

/-- `Decoder::peek`: drop the current peek buffer (`self.peek.take()`), call
`next`, and store the byte read back into the buffer. -/
def dpeek (d : Decoder) : Except Err Nat × Decoder :=
  match dnext ⟨none, d.input⟩ with
  | (.ok b, d1) => (.ok b, ⟨some b, d1.input⟩)
  | (.error e, d1) => (.error e, d1)

/-- `byteorder`'s exact read of `w` bytes straight from `self.reader`
(bypassing the peek buffer, exactly as `parse_i8`..`parse_f64` do);
a short read is `UnexpectedEOF` with the source drained. -/
def read_exact (w : Nat) (d : Decoder) : Except Err (List Nat) × Decoder :=
  if w ≤ d.input.length then (.ok (d.input.take w), ⟨d.peek, d.input.drop w⟩)
  else (.error .unexpectedEOF, ⟨d.peek, []⟩)

/-- `Decoder::take`: `n` bytes via `next` (so the peek buffer is consumed
first). -/
def dtake : Nat → Decoder → Except Err (List Nat) × Decoder
  | 0, d => (.ok [], d)
  | n + 1, d =>
    match dnext d with
    | (.ok b, d1) =>
      match dtake n d1 with
      | (.ok bs, d2) => (.ok (b :: bs), d2)
      | (.error e, d2) => (.error e, d2)
    | (.error e, d1) => (.error e, d1)

/-- `Decoder::take_while` loop body, fuelled (the Rust loop carries no fuel;
`dsize d + 1` fuel is always enough, see `take_while`): read via `next` while
the predicate holds, return the collected bytes when it first fails (that
byte is consumed and dropped). -/
def dtakeWhileF (p : Nat → Bool) : Nat → Decoder → Except Err (List Nat) × Decoder
  | 0, d => (.error .endOfStream, d)
  | fuel + 1, d =>
    match dnext d with
    | (.ok b, d1) =>
      if p b then
        match dtakeWhileF p fuel d1 with
        | (.ok bs, d2) => (.ok (b :: bs), d2)
        | (.error e, d2) => (.error e, d2)
      else (.ok [], d1)
    | (.error e, d1) => (.error e, d1)

/-- Bytes available to `next`: the reader's plus the peeked one. -/
def dsize (d : Decoder) : Nat :=
  d.input.length + (match d.peek with | some _ => 1 | none => 0)

/-- `Decoder::take_while`. Each loop step consumes a byte, so `dsize d + 1`
steps always reach either the failing byte or `UnexpectedEOF`. -/
def take_while (p : Nat → Bool) (d : Decoder) : Except Err (List Nat) × Decoder :=
  dtakeWhileF p (dsize d + 1) d

/-- `Decoder::parse_string` (decimal-length form): `take_while(b != ':')`,
`String::from_utf8` then `parse::<usize>` on the digits (modelled together by
`parseUsize`; a non-digit or empty run is the length-parse failure), then
`take` that many bytes. -/
def parse_string (d : Decoder) : Except Err (List Nat) × Decoder :=
  match take_while (fun b => !(b == 58)) d with
  | (.ok numbytes, d1) =>
    match parseUsize numbytes with
    | some n => dtake n d1
    | none => (.error .parseIntError, d1)
  | (.error e, d1) => (.error e, d1)

/-- `Decoder::parse_embed_string`: length `byte - STR_FIXED_START` (128),
clear the peek buffer (`self.peek.take()`), then `take` that many bytes. -/
def parse_embed_string (b : Nat) (d : Decoder) : Except Err (List Nat) × Decoder :=
  dtake (b - 128) ⟨none, d.input⟩

/-- `Decoder::parse_i8` / `parse_i16` / `parse_i32` / `parse_i64`:
`read_iN::<BigEndian>` straight from the reader. -/
def parse_int (w : Nat) (d : Decoder) : Except Err Int × Decoder :=
  match read_exact w d with
  | (.ok bs, d1) => (.ok (intFromBE w bs), d1)
  | (.error e, d1) => (.error e, d1)

/-- IEEE-754 bit-pattern widening of an `f32` to an `f64` (Rust `v as f64`,
called by serde's default `Visitor::visit_f32`, which `ValueVisitor` does not
override): sign, rebiased exponent, mantissa shifted into the wider field;
infinities and NaNs map to exponent 2047, subnormals are renormalized. -/
def f32BitsToF64Bits (b : Nat) : Nat :=
  let sign := b / 2 ^ 31 % 2
  let ex := b / 2 ^ 23 % 256
  let frac := b % 2 ^ 23
  if ex = 255 then sign * 2 ^ 63 + 2047 * 2 ^ 52 + frac * 2 ^ 29
  else if ex = 0 then
    if frac = 0 then sign * 2 ^ 63
    else sign * 2 ^ 63 + (874 + Nat.log2 frac) * 2 ^ 52 + (frac - 2 ^ Nat.log2 frac) * 2 ^ (52 - Nat.log2 frac)
  else sign * 2 ^ 63 + (ex + 896) * 2 ^ 52 + frac * 2 ^ 29

/-- `String::deserialize` through `Decoder::visit`: serde's string visitor
accepts `visit_string` (the two string arms) and rejects every other arrival
with a syntax error — after the arm's own payload parsing has already run.
`TERM` (127) still raises `EndOfStruct` before any visitor call. Used for
map keys (`BTreeMap<String, Value>`). -/
def decodeKeyStr (d : Decoder) : Except Err (List Nat) × Decoder :=
  match dpeek d with
  | (.error e, d1) => (.error e, d1)
  | (.ok b, d1) =>
    if 48 ≤ b ∧ b ≤ 57 then parse_string d1
    else if 128 ≤ b ∧ b ≤ 191 then parse_embed_string b d1
    else if b = 62 then
      match read_exact 1 d1 with
      | (.ok _, d2) => (.error .malformed, d2)
      | (.error e, d2) => (.error e, d2)
    else if b = 63 then
      match read_exact 2 d1 with
      | (.ok _, d2) => (.error .malformed, d2)
      | (.error e, d2) => (.error e, d2)
    else if b = 64 then
      match read_exact 4 d1 with
      | (.ok _, d2) => (.error .malformed, d2)
      | (.error e, d2) => (.error e, d2)
    else if b = 65 then
      match read_exact 8 d1 with
      | (.ok _, d2) => (.error .malformed, d2)
      | (.error e, d2) => (.error e, d2)
    else if b = 66 then
      match read_exact 4 d1 with
      | (.ok _, d2) => (.error .malformed, d2)
      | (.error e, d2) => (.error e, d2)
    else if b = 44 then
      match read_exact 8 d1 with
      | (.ok _, d2) => (.error .malformed, d2)
      | (.error e, d2) => (.error e, d2)
    else if b ≤ 43 then (.error .malformed, d1)
    else if 70 ≤ b ∧ b ≤ 101 then (.error .malformed, d1)
    else if b = 67 ∨ b = 68 ∨ b = 69 then (.error .malformed, d1)
    else if b = 59 then (.error .malformed, d1)
    else if 192 ≤ b ∧ b ≤ 255 then (.error .malformed, ⟨none, d1.input⟩)
    else if b = 60 then (.error .malformed, d1)
    else if 102 ≤ b ∧ b ≤ 126 then (.error .malformed, ⟨none, d1.input⟩)
    else if b = 127 then (.error .endOfStruct, d1)
    else (.error .malformed, d1)

mutual
/-- `Value::deserialize`, i.e. `Decoder::visit(ValueVisitor)`: peek one byte
and dispatch. Arms in source order: ASCII digit → decimal-length string;
128–191 → fixed string; 62/63/64/65 → signed big-endian of width 1/2/4/8;
66 → `f32` (widened to `F64` by serde's default `visit_f32`); 44 → `f64`;
0–43 → embedded nonnegative; 70–101 → embedded negative `69 - byte`;
67/68 → booleans; 69 → `None`; 59 → open list; 192–255 → fixed list
(`build_fixed_visitor` clears the peek buffer); 60 → open map; 102–126 →
fixed map; 127 (`TERM`) → `EndOfStruct`; anything else → syntax error. -/
def decodeVal (fuel : Nat) (d : Decoder) : Except Err Value × Decoder :=
  match fuel with
  | 0 => (.error .endOfStream, d)
  | fuel + 1 =>
    match dpeek d with
    | (.error e, d1) => (.error e, d1)
    | (.ok b, d1) =>
      if 48 ≤ b ∧ b ≤ 57 then
        match parse_string d1 with
        | (.ok s, d2) => (.ok (.str s), d2)
        | (.error e, d2) => (.error e, d2)
      else if 128 ≤ b ∧ b ≤ 191 then
        match parse_embed_string b d1 with
        | (.ok s, d2) => (.ok (.str s), d2)
        | (.error e, d2) => (.error e, d2)
      else if b = 62 then
        match parse_int 1 d1 with
        | (.ok v, d2) => (.ok (.i64 v), d2)
        | (.error e, d2) => (.error e, d2)
      else if b = 63 then
        match parse_int 2 d1 with
        | (.ok v, d2) => (.ok (.i64 v), d2)
        | (.error e, d2) => (.error e, d2)
      else if b = 64 then
        match parse_int 4 d1 with
        | (.ok v, d2) => (.ok (.i64 v), d2)
        | (.error e, d2) => (.error e, d2)
      else if b = 65 then
        match parse_int 8 d1 with
        | (.ok v, d2) => (.ok (.i64 v), d2)
        | (.error e, d2) => (.error e, d2)
      else if b = 66 then
        match read_exact 4 d1 with
        | (.ok bs, d2) => (.ok (.f64 (f32BitsToF64Bits (beBytesToNat bs))), d2)
        | (.error e, d2) => (.error e, d2)
      else if b = 44 then
        match read_exact 8 d1 with
        | (.ok bs, d2) => (.ok (.f64 (beBytesToNat bs)), d2)
        | (.error e, d2) => (.error e, d2)
      else if b ≤ 43 then (.ok (.i64 (b : Int)), d1)
      else if 70 ≤ b ∧ b ≤ 101 then (.ok (.i64 (69 - (b : Int))), d1)
      else if b = 67 then (.ok (.bool true), d1)
      else if b = 68 then (.ok (.bool false), d1)
      else if b = 69 then (.ok .none, d1)
      else if b = 59 then
        match decodeListOpen fuel d1 with
        | (.ok xs, d2) => (.ok (.list xs), d2)
        | (.error e, d2) => (.error e, d2)
      else if 192 ≤ b ∧ b ≤ 255 then
        match decodeListFixed fuel (b - 192) ⟨none, d1.input⟩ with
        | (.ok xs, d2) => (.ok (.list xs), d2)
        | (.error e, d2) => (.error e, d2)
      else if b = 60 then
        match decodeDictOpen fuel d1 with
        | (.ok kvs, d2) => (.ok (.dict (mkBTree kvs)), d2)
        | (.error e, d2) => (.error e, d2)
      else if 102 ≤ b ∧ b ≤ 126 then
        match decodeDictFixed fuel (b - 102) ⟨none, d1.input⟩ with
        | (.ok kvs, d2) => (.ok (.dict (mkBTree kvs)), d2)
        | (.error e, d2) => (.error e, d2)
      else if b = 127 then (.error .endOfStruct, d1)
      else (.error .malformed, d1)

/-- `VecVisitor` driving the open-list `SeqVisitor for Decoder`: deserialize
elements until one raises `EndOfStruct` (converted to "no more elements"),
then `end()`: `next()` must return `TERM` (127), otherwise syntax error. -/
def decodeListOpen (fuel : Nat) (d : Decoder) : Except Err (List Value) × Decoder :=
  match fuel with
  | 0 => (.error .endOfStream, d)
  | fuel + 1 =>
    match decodeVal fuel d with
    | (.ok v, d1) =>
      match decodeListOpen fuel d1 with
      | (.ok vs, d2) => (.ok (v :: vs), d2)
      | (.error e, d2) => (.error e, d2)
    | (.error .endOfStruct, d1) =>
      match dnext d1 with
      | (.ok b, d2) => if b = 127 then (.ok [], d2) else (.error .malformed, d2)
      | (.error e, d2) => (.error e, d2)
    | (.error e, d1) => (.error e, d1)

/-- `VecVisitor` driving a `FixedVisitor`: exactly `n` elements, counter
gated, `end()` is a no-op. -/
def decodeListFixed (fuel : Nat) : Nat → Decoder → Except Err (List Value) × Decoder
  | 0, d => (.ok [], d)
  | n + 1, d =>
    match fuel with
    | 0 => (.error .endOfStream, d)
    | fuel + 1 =>
      match decodeVal fuel d with
      | (.ok v, d1) =>
        match decodeListFixed fuel n d1 with
        | (.ok vs, d2) => (.ok (v :: vs), d2)
        | (.error e, d2) => (.error e, d2)
      | (.error e, d1) => (.error e, d1)

/-- `BTreeMapVisitor` driving the open-map `MapVisitor for Decoder`:
`visit_key` (a `String` deserialize; `EndOfStruct` means "no more entries"),
then `visit_value` (a plain deserialize — `EndOfStruct` from it is *not*
caught here and propagates), repeatedly; then `end()` expects `TERM`.
Returns the entries in encounter order; the caller inserts them into the
`BTreeMap` (`mkBTree`). -/
def decodeDictOpen (fuel : Nat) (d : Decoder) : Except Err (List (List Nat × Value)) × Decoder :=
  match fuel with
  | 0 => (.error .endOfStream, d)
  | fuel + 1 =>
    match decodeKeyStr d with
    | (.ok k, d1) =>
      match decodeVal fuel d1 with
      | (.ok v, d2) =>
        match decodeDictOpen fuel d2 with
        | (.ok kvs, d3) => (.ok ((k, v) :: kvs), d3)
        | (.error e, d3) => (.error e, d3)
      | (.error e, d2) => (.error e, d2)
    | (.error .endOfStruct, d1) =>
      match dnext d1 with
      | (.ok b, d2) => if b = 127 then (.ok [], d2) else (.error .malformed, d2)
      | (.error e, d2) => (.error e, d2)
    | (.error e, d1) => (.error e, d1)

/-- `BTreeMapVisitor` driving a fixed-map `FixedVisitor`: exactly `n`
key/value pairs, `end()` is a no-op. -/
def decodeDictFixed (fuel : Nat) : Nat → Decoder → Except Err (List (List Nat × Value)) × Decoder
  | 0, d => (.ok [], d)
  | n + 1, d =>
    match fuel with
    | 0 => (.error .endOfStream, d)
    | fuel + 1 =>
      match decodeKeyStr d with
      | (.ok k, d1) =>
        match decodeVal fuel d1 with
        | (.ok v, d2) =>
          match decodeDictFixed fuel n d2 with
          | (.ok kvs, d3) => (.ok ((k, v) :: kvs), d3)
          | (.error e, d3) => (.error e, d3)
        | (.error e, d2) => (.error e, d2)
      | (.error e, d1) => (.error e, d1)
end

/-- `rencode::decode::<Value, _>`: run `Value::deserialize` on a fresh
decoder over the byte source. The fuel `2 * input.length + 2` is an upper
bound on the recursion the Rust code performs on this input (each fuel layer
of nesting/iteration consumes input; `decodeVal_encode` below proves it
sufficient for every encoded value). -/
def decode (input : List Nat) : Except Err Value :=
  (decodeVal (2 * input.length + 2) ⟨none, input⟩).1

/-! ## Byte-level lemmas -/

theorem natToBEBytes_length (w : Nat) : ∀ n, (natToBEBytes w n).length = w := by
  induction w with
  | zero => intro n; rfl
  | succ k ih => intro n; simp [natToBEBytes, ih]

theorem beBytesToNat_append_one (l : List Nat) (b : Nat) :
    beBytesToNat (l ++ [b]) = beBytesToNat l * 256 + b := by
  simp [beBytesToNat, List.foldl_append]

theorem beBytesToNat_natToBEBytes (w : Nat) : ∀ n, beBytesToNat (natToBEBytes w n) = n % 256 ^ w := by
  induction w with
  | zero => intro n; simp [natToBEBytes, beBytesToNat, Nat.mod_one]
  | succ k ih =>
    intro n
    rw [natToBEBytes, beBytesToNat_append_one, ih]
    have h1 : (256 : Nat) ^ (k + 1) = 256 * 256 ^ k := by ring
    rw [h1, Nat.mod_mul]
    omega

theorem intFromBE_intToBE (w : Nat) (v : Int)
    (h1 : -(256 ^ w : Int) ≤ 2 * v) (h2 : 2 * v < (256 ^ w : Int)) :
    intFromBE w (intToBE w v) = v := by
  have hM : (0 : Int) < (256 : Int) ^ w := by positivity
  have hcast : ((256 ^ w : Nat) : Int) = (256 : Int) ^ w := by push_cast; ring
  have hnn : (0 : Int) ≤ v.emod ((256 : Int) ^ w) := Int.emod_nonneg v (by omega)
  have hlt : v.emod ((256 : Int) ^ w) < (256 : Int) ^ w := Int.emod_lt_of_pos v hM
  rw [intFromBE, intToBE, beBytesToNat_natToBEBytes]
  rcases le_or_lt 0 v with hv | hv
  · have hveq : v.emod ((256 : Int) ^ w) = v := Int.emod_eq_of_lt hv (by omega)
    rw [hveq]
    have htn : ((v.toNat : Int)) = v := Int.toNat_of_nonneg hv
    have hmod : v.toNat % 256 ^ w = v.toNat := Nat.mod_eq_of_lt (by omega)
    rw [hmod]
    have hcond : 2 * v.toNat < 256 ^ w := by omega
    rw [if_pos hcond, htn]
  · have hveq : v.emod ((256 : Int) ^ w) = v + (256 : Int) ^ w := by
      show v % ((256 : Int) ^ w) = v + (256 : Int) ^ w
      have h3 := Int.add_mul_emod_self_left (a := v) (b := (256 : Int) ^ w) (c := 1)
      rw [mul_one] at h3
      rw [← h3]
      exact Int.emod_eq_of_lt (by omega) (by omega)
    rw [hveq]
    have htn : (((v + (256 : Int) ^ w).toNat : Int)) = v + (256 : Int) ^ w :=
      Int.toNat_of_nonneg (by omega)
    have hmod : (v + (256 : Int) ^ w).toNat % 256 ^ w = (v + (256 : Int) ^ w).toNat :=
      Nat.mod_eq_of_lt (by omega)
    rw [hmod]
    have hcond : ¬ 2 * (v + (256 : Int) ^ w).toNat < 256 ^ w := by omega
    rw [if_neg hcond]
    omega

theorem digitsToNat_append_one (l : List Nat) (b : Nat) :
    digitsToNat (l ++ [b]) = digitsToNat l * 10 + (b - 48) := by
  simp [digitsToNat, List.foldl_append]

theorem asciiDigitsAux_spec (fuel : Nat) : ∀ n, n < fuel →
    asciiDigitsAux fuel n ≠ [] ∧ (∀ b ∈ asciiDigitsAux fuel n, 48 ≤ b ∧ b ≤ 57) ∧
      digitsToNat (asciiDigitsAux fuel n) = n := by
  induction fuel with
  | zero => intro n h; omega
  | succ k ih =>
    intro n h
    rw [asciiDigitsAux]
    by_cases hn : n < 10
    · rw [if_pos hn]
      refine ⟨by simp, ?_, ?_⟩
      · intro b hb; simp at hb; omega
      · simp [digitsToNat]
    · rw [if_neg hn]
      have hdiv : n / 10 < k := by
        have := Nat.div_lt_self (by omega : 0 < n) (by omega : 1 < 10)
        omega
      obtain ⟨hne, hdig, hval⟩ := ih (n / 10) hdiv
      refine ⟨by simp, ?_, ?_⟩
      · intro b hb
        rcases List.mem_append.mp hb with hb | hb
        · exact hdig b hb
        · simp at hb; omega
      · rw [digitsToNat_append_one, hval]
        have h10 : n % 10 < 10 := Nat.mod_lt n (by omega)
        omega

theorem asciiDigitsOf_spec (n : Nat) :
    asciiDigitsOf n ≠ [] ∧ (∀ b ∈ asciiDigitsOf n, 48 ≤ b ∧ b ≤ 57) ∧
      digitsToNat (asciiDigitsOf n) = n :=
  asciiDigitsAux_spec (n + 1) n (by omega)

theorem parseUsize_asciiDigitsOf (n : Nat) : parseUsize (asciiDigitsOf n) = some n := by
  obtain ⟨hne, hdig, hval⟩ := asciiDigitsOf_spec n
  rw [parseUsize, if_pos, hval]
  refine ⟨hne, ?_⟩
  rw [List.all_eq_true]
  intro b hb
  have := hdig b hb
  simp only [Bool.and_eq_true, decide_eq_true_eq]
  omega

/-! ## Decoder primitive lemmas -/

theorem dnext_peeked (b : Nat) (l : List Nat) : dnext ⟨some b, l⟩ = (.ok b, ⟨none, l⟩) := rfl

theorem dpeek_cons (pk : Option Nat) (b : Nat) (l : List Nat) :
    dpeek ⟨pk, b :: l⟩ = (.ok b, ⟨some b, l⟩) := rfl

theorem dpeek_nil (pk : Option Nat) : dpeek ⟨pk, []⟩ = (.error .unexpectedEOF, ⟨none, []⟩) := rfl

theorem read_exact_append (w : Nat) (bs rest : List Nat) (pk : Option Nat) (h : bs.length = w) :
    read_exact w ⟨pk, bs ++ rest⟩ = (.ok bs, ⟨pk, rest⟩) := by
  rw [read_exact, if_pos]
  · rw [List.take_append_of_le_length (by omega), List.drop_append_of_le_length (by omega)]
    simp [h]
  · simp; omega

theorem dtake_append (bs : List Nat) : ∀ rest, dtake bs.length ⟨none, bs ++ rest⟩ = (.ok bs, ⟨none, rest⟩) := by
  induction bs with
  | nil => intro rest; rfl
  | cons b bs ih => intro rest; simp [dtake, dnext, ih rest]

theorem dtakeWhileF_spec (p : Nat → Bool) (bs : List Nat) :
    ∀ fuel c rest, (∀ b ∈ bs, p b = true) → p c = false → bs.length + 1 ≤ fuel →
      dtakeWhileF p fuel ⟨none, bs ++ c :: rest⟩ = (.ok bs, ⟨none, rest⟩) := by
  induction bs with
  | nil =>
    intro fuel c rest _ hc hfuel
    obtain ⟨f, rfl⟩ : ∃ f, fuel = f + 1 := ⟨fuel - 1, by omega⟩
    simp [dtakeWhileF, dnext, hc]
  | cons b bs ih =>
    intro fuel c rest hbs hc hfuel
    obtain ⟨f, rfl⟩ : ∃ f, fuel = f + 1 := ⟨fuel - 1, by omega⟩
    have hb : p b = true := hbs b (by simp)
    have hrest : ∀ x ∈ bs, p x = true := fun x hx => hbs x (by simp [hx])
    simp only [List.cons_append, dtakeWhileF, dnext, hb, if_true]
    rw [ih f c rest hrest hc (by simp at hfuel ⊢; omega)]

theorem take_while_peeked (p : Nat → Bool) (b0 : Nat) (bs : List Nat) (c : Nat) (rest : List Nat)
    (hb0 : p b0 = true) (hbs : ∀ b ∈ bs, p b = true) (hc : p c = false) :
    take_while p ⟨some b0, bs ++ c :: rest⟩ = (.ok (b0 :: bs), ⟨none, rest⟩) := by
  rw [take_while]
  have hsize : dsize ⟨some b0, bs ++ c :: rest⟩ = bs.length + rest.length + 2 := by
    simp [dsize]; omega
  rw [hsize]
  have h1 : bs.length + rest.length + 2 + 1 = (bs.length + rest.length + 2) + 1 := rfl
  rw [dtakeWhileF]
  simp only [dnext, hb0, if_true]
  rw [dtakeWhileF_spec p bs _ c rest hbs hc (by omega)]

theorem parse_embed_string_spec (s rest : List Nat) (pk : Option Nat) (h : s.length < 64) :
    parse_embed_string (128 + s.length) ⟨pk, s ++ rest⟩ = (.ok s, ⟨none, rest⟩) := by
  rw [parse_embed_string]
  have h1 : 128 + s.length - 128 = s.length := by omega
  rw [h1]
  exact dtake_append s rest

theorem parse_string_encLong (s rest : List Nat) (b0 : Nat) (ds : List Nat)
    (hd : asciiDigitsOf s.length = b0 :: ds) :
    parse_string ⟨some b0, ds ++ 58 :: (s ++ rest)⟩ = (.ok s, ⟨none, rest⟩) := by
  obtain ⟨_, hdig, _⟩ := asciiDigitsOf_spec s.length
  rw [hd] at hdig
  have hb0 : (!(b0 == 58)) = true := by
    have := hdig b0 (by simp)
    simp only [Bool.not_eq_true', beq_eq_false_iff_ne, ne_eq]
    omega
  have hds : ∀ b ∈ ds, (!(b == 58)) = true := by
    intro b hb
    have := hdig b (by simp [hb])
    simp only [Bool.not_eq_true', beq_eq_false_iff_ne, ne_eq]
    omega
  have hc : (!((58 : Nat) == 58)) = false := by simp
  have hpu : parseUsize (b0 :: ds) = some s.length := by rw [← hd, parseUsize_asciiDigitsOf]
  simp only [parse_string, take_while_peeked _ b0 ds 58 (s ++ rest) hb0 hds hc, hpu]
  exact dtake_append s rest

theorem parse_int_append (w : Nat) (bs rest : List Nat) (pk : Option Nat) (h : bs.length = w) :
    parse_int w ⟨pk, bs ++ rest⟩ = (.ok (intFromBE w bs), ⟨pk, rest⟩) := by
  simp only [parse_int, read_exact_append w bs rest pk h]

/-! ## Dispatch lemmas for `decodeVal` (one unfolding step per leading byte) -/

theorem decodeVal_term (f : Nat) (pk : Option Nat) (l : List Nat) :
    decodeVal (f + 1) ⟨pk, 127 :: l⟩ = (.error .endOfStruct, ⟨some 127, l⟩) := rfl

theorem decodeVal_nil (f : Nat) (pk : Option Nat) :
    decodeVal (f + 1) ⟨pk, []⟩ = (.error .unexpectedEOF, ⟨none, []⟩) := rfl

theorem decodeVal_true (f : Nat) (pk : Option Nat) (l : List Nat) :
    decodeVal (f + 1) ⟨pk, 67 :: l⟩ = (.ok (.bool true), ⟨some 67, l⟩) := rfl

theorem decodeVal_false (f : Nat) (pk : Option Nat) (l : List Nat) :
    decodeVal (f + 1) ⟨pk, 68 :: l⟩ = (.ok (.bool false), ⟨some 68, l⟩) := rfl

theorem decodeVal_none (f : Nat) (pk : Option Nat) (l : List Nat) :
    decodeVal (f + 1) ⟨pk, 69 :: l⟩ = (.ok .none, ⟨some 69, l⟩) := rfl

theorem decodeVal_listOpenArm (f : Nat) (pk : Option Nat) (l : List Nat) :
    decodeVal (f + 1) ⟨pk, 59 :: l⟩ =
      (match decodeListOpen f ⟨some 59, l⟩ with
       | (.ok xs, d2) => (.ok (.list xs), d2)
       | (.error e, d2) => (.error e, d2)) := rfl

theorem decodeVal_dictOpenArm (f : Nat) (pk : Option Nat) (l : List Nat) :
    decodeVal (f + 1) ⟨pk, 60 :: l⟩ =
      (match decodeDictOpen f ⟨some 60, l⟩ with
       | (.ok kvs, d2) => (.ok (.dict (mkBTree kvs)), d2)
       | (.error e, d2) => (.error e, d2)) := rfl

theorem decodeVal_embedPos (f : Nat) (pk : Option Nat) (b : Nat) (l : List Nat) (h : b ≤ 43) :
    decodeVal (f + 1) ⟨pk, b :: l⟩ = (.ok (.i64 (b : Int)), ⟨some b, l⟩) := by
  interval_cases b <;> rfl

theorem decodeVal_embedNeg (f : Nat) (pk : Option Nat) (b : Nat) (l : List Nat)
    (h1 : 70 ≤ b) (h2 : b ≤ 101) :
    decodeVal (f + 1) ⟨pk, b :: l⟩ = (.ok (.i64 (69 - (b : Int))), ⟨some b, l⟩) := by
  interval_cases b <;> rfl

theorem decodeVal_digitArm (f : Nat) (pk : Option Nat) (b : Nat) (l : List Nat)
    (h1 : 48 ≤ b) (h2 : b ≤ 57) :
    decodeVal (f + 1) ⟨pk, b :: l⟩ =
      (match parse_string ⟨some b, l⟩ with
       | (.ok s, d2) => (.ok (.str s), d2)
       | (.error e, d2) => (.error e, d2)) := by
  interval_cases b <;> rfl

theorem decodeVal_strFixedArm (f : Nat) (pk : Option Nat) (b : Nat) (l : List Nat)
    (h1 : 128 ≤ b) (h2 : b ≤ 191) :
    decodeVal (f + 1) ⟨pk, b :: l⟩ =
      (match parse_embed_string b ⟨some b, l⟩ with
       | (.ok s, d2) => (.ok (.str s), d2)
       | (.error e, d2) => (.error e, d2)) := by
  interval_cases b <;> rfl

theorem decodeVal_listFixedArm (f : Nat) (pk : Option Nat) (b : Nat) (l : List Nat)
    (h1 : 192 ≤ b) (h2 : b ≤ 255) :
    decodeVal (f + 1) ⟨pk, b :: l⟩ =
      (match decodeListFixed f (b - 192) ⟨none, l⟩ with
       | (.ok xs, d2) => (.ok (.list xs), d2)
       | (.error e, d2) => (.error e, d2)) := by
  interval_cases b <;> rfl

theorem decodeVal_dictFixedArm (f : Nat) (pk : Option Nat) (b : Nat) (l : List Nat)
    (h1 : 102 ≤ b) (h2 : b ≤ 126) :
    decodeVal (f + 1) ⟨pk, b :: l⟩ =
      (match decodeDictFixed f (b - 102) ⟨none, l⟩ with
       | (.ok kvs, d2) => (.ok (.dict (mkBTree kvs)), d2)
       | (.error e, d2) => (.error e, d2)) := by
  interval_cases b <;> rfl

theorem decodeVal_i8Arm (f : Nat) (pk : Option Nat) (l : List Nat) :
    decodeVal (f + 1) ⟨pk, 62 :: l⟩ =
      (match parse_int 1 ⟨some 62, l⟩ with
       | (.ok v, d2) => (.ok (.i64 v), d2)
       | (.error e, d2) => (.error e, d2)) := rfl

theorem decodeVal_i16Arm (f : Nat) (pk : Option Nat) (l : List Nat) :
    decodeVal (f + 1) ⟨pk, 63 :: l⟩ =
      (match parse_int 2 ⟨some 63, l⟩ with
       | (.ok v, d2) => (.ok (.i64 v), d2)
       | (.error e, d2) => (.error e, d2)) := rfl

theorem decodeVal_i32Arm (f : Nat) (pk : Option Nat) (l : List Nat) :
    decodeVal (f + 1) ⟨pk, 64 :: l⟩ =
      (match parse_int 4 ⟨some 64, l⟩ with
       | (.ok v, d2) => (.ok (.i64 v), d2)
       | (.error e, d2) => (.error e, d2)) := rfl

theorem decodeVal_i64Arm (f : Nat) (pk : Option Nat) (l : List Nat) :
    decodeVal (f + 1) ⟨pk, 65 :: l⟩ =
      (match parse_int 8 ⟨some 65, l⟩ with
       | (.ok v, d2) => (.ok (.i64 v), d2)
       | (.error e, d2) => (.error e, d2)) := rfl

theorem decodeVal_intArm (f : Nat) (pk : Option Nat) (w header : Nat) (payload rest : List Nat)
    (hw : (header, w) ∈ ([(62, 1), (63, 2), (64, 4), (65, 8)] : List (Nat × Nat)))
    (hlen : payload.length = w) :
    decodeVal (f + 1) ⟨pk, header :: (payload ++ rest)⟩ =
      (.ok (.i64 (intFromBE w payload)), ⟨some header, rest⟩) := by
  simp only [List.mem_cons, List.not_mem_nil, or_false, Prod.mk.injEq] at hw
  rcases hw with ⟨rfl, rfl⟩ | ⟨rfl, rfl⟩ | ⟨rfl, rfl⟩ | ⟨rfl, rfl⟩
  · rw [decodeVal_i8Arm, parse_int_append 1 payload rest _ hlen]
  · rw [decodeVal_i16Arm, parse_int_append 2 payload rest _ hlen]
  · rw [decodeVal_i32Arm, parse_int_append 4 payload rest _ hlen]
  · rw [decodeVal_i64Arm, parse_int_append 8 payload rest _ hlen]

theorem decodeVal_f64ArmRaw (f : Nat) (pk : Option Nat) (l : List Nat) :
    decodeVal (f + 1) ⟨pk, 44 :: l⟩ =
      (match read_exact 8 ⟨some 44, l⟩ with
       | (.ok bs, d2) => (.ok (.f64 (beBytesToNat bs)), d2)
       | (.error e, d2) => (.error e, d2)) := rfl

theorem decodeVal_f32ArmRaw (f : Nat) (pk : Option Nat) (l : List Nat) :
    decodeVal (f + 1) ⟨pk, 66 :: l⟩ =
      (match read_exact 4 ⟨some 66, l⟩ with
       | (.ok bs, d2) => (.ok (.f64 (f32BitsToF64Bits (beBytesToNat bs))), d2)
       | (.error e, d2) => (.error e, d2)) := rfl

theorem decodeVal_f64Arm (f : Nat) (pk : Option Nat) (payload rest : List Nat)
    (hlen : payload.length = 8) :
    decodeVal (f + 1) ⟨pk, 44 :: (payload ++ rest)⟩ =
      (.ok (.f64 (beBytesToNat payload)), ⟨some 44, rest⟩) := by
  rw [decodeVal_f64ArmRaw, read_exact_append 8 payload rest _ hlen]

theorem decodeVal_str (f : Nat) (pk : Option Nat) (s rest : List Nat) :
    decodeVal (f + 1) ⟨pk, visit_str s ++ rest⟩ = (.ok (.str s), ⟨none, rest⟩) := by
  rw [visit_str]
  by_cases h : s.length < 64
  · rw [if_pos h]
    rw [List.cons_append,
      decodeVal_strFixedArm f pk (128 + s.length) (s ++ rest) (by omega) (by omega),
      parse_embed_string_spec s rest _ h]
  · rw [if_neg h]
    obtain ⟨hne, hdig, _⟩ := asciiDigitsOf_spec s.length
    obtain ⟨b0, ds, hd⟩ : ∃ b0 ds, asciiDigitsOf s.length = b0 :: ds := by
      cases hds : asciiDigitsOf s.length with
      | nil => exact absurd hds hne
      | cons x xs => exact ⟨x, xs, rfl⟩
    have hb0 := hdig b0 (by rw [hd]; simp)
    rw [hd]
    have hshape : (b0 :: ds ++ 58 :: s) ++ rest = b0 :: (ds ++ 58 :: (s ++ rest)) := by simp
    rw [hshape, decodeVal_digitArm f pk b0 _ (by omega) (by omega),
      parse_string_encLong s rest b0 ds hd]

theorem decodeKeyStr_term (pk : Option Nat) (l : List Nat) :
    decodeKeyStr ⟨pk, 127 :: l⟩ = (.error .endOfStruct, ⟨some 127, l⟩) := rfl

theorem decodeKeyStr_strFixedArm (pk : Option Nat) (b : Nat) (l : List Nat)
    (h1 : 128 ≤ b) (h2 : b ≤ 191) :
    decodeKeyStr ⟨pk, b :: l⟩ = parse_embed_string b ⟨some b, l⟩ := by
  interval_cases b <;> rfl

theorem decodeKeyStr_digitArm (pk : Option Nat) (b : Nat) (l : List Nat)
    (h1 : 48 ≤ b) (h2 : b ≤ 57) :
    decodeKeyStr ⟨pk, b :: l⟩ = parse_string ⟨some b, l⟩ := by
  interval_cases b <;> rfl

theorem decodeKeyStr_enc (s rest : List Nat) (pk : Option Nat) :
    decodeKeyStr ⟨pk, visit_str s ++ rest⟩ = (.ok s, ⟨none, rest⟩) := by
  rw [visit_str]
  by_cases h : s.length < 64
  · rw [if_pos h]
    rw [List.cons_append, decodeKeyStr_strFixedArm pk (128 + s.length) (s ++ rest) (by omega) (by omega),
      parse_embed_string_spec s rest _ h]
  · rw [if_neg h]
    obtain ⟨hne, hdig, _⟩ := asciiDigitsOf_spec s.length
    obtain ⟨b0, ds, hd⟩ : ∃ b0 ds, asciiDigitsOf s.length = b0 :: ds := by
      cases hds : asciiDigitsOf s.length with
      | nil => exact absurd hds hne
      | cons x xs => exact ⟨x, xs, rfl⟩
    have hb0 := hdig b0 (by rw [hd]; simp)
    rw [hd]
    have hshape : (b0 :: ds ++ 58 :: s) ++ rest = b0 :: (ds ++ 58 :: (s ++ rest)) := by simp
    rw [hshape, decodeKeyStr_digitArm pk b0 _ (by omega) (by omega),
      parse_string_encLong s rest b0 ds hd]

/-! ## Lexicographic order and `BTreeMap` lemmas -/

theorem lexCmp_self : ∀ l : List Nat, lexCmp l l = .eq := by
  intro l
  induction l with
  | nil => rfl
  | cons a t ih => simp [lexCmp, ih]

theorem lexCmp_eq_implies : ∀ l1 l2 : List Nat, lexCmp l1 l2 = .eq → l1 = l2 := by
  intro l1
  induction l1 with
  | nil => intro l2 h; cases l2 with
    | nil => rfl
    | cons b t2 => simp [lexCmp] at h
  | cons a t ih =>
    intro l2 h
    cases l2 with
    | nil => simp [lexCmp] at h
    | cons b t2 =>
      simp only [lexCmp] at h
      split_ifs at h with h1 h2
      have hab : a = b := by omega
      rw [hab, ih t2 h]

theorem lexCmp_lt_gt : ∀ l1 l2 : List Nat, lexCmp l1 l2 = .lt ↔ lexCmp l2 l1 = .gt := by
  intro l1
  induction l1 with
  | nil => intro l2; cases l2 <;> simp [lexCmp]
  | cons a t ih =>
    intro l2
    cases l2 with
    | nil => simp [lexCmp]
    | cons b t2 =>
      simp only [lexCmp]
      split_ifs with h1 h2 <;> simp [ih t2] <;> omega

theorem lexCmp_trans_lt : ∀ l1 l2 l3 : List Nat,
    lexCmp l1 l2 = .lt → lexCmp l2 l3 = .lt → lexCmp l1 l3 = .lt := by
  intro l1
  induction l1 with
  | nil =>
    intro l2 l3 h12 h23
    cases l3 with
    | nil =>
      cases l2 with
      | nil => simp [lexCmp] at h12
      | cons b t2 => simp [lexCmp] at h23
    | cons c t3 => simp [lexCmp]
  | cons a t1 ih =>
    intro l2 l3 h12 h23
    cases l2 with
    | nil => simp [lexCmp] at h12
    | cons b t2 =>
      cases l3 with
      | nil => simp [lexCmp] at h23
      | cons c t3 =>
        simp only [lexCmp] at h12 h23 ⊢
        split_ifs at h12 h23 ⊢ <;>
          first
          | rfl
          | omega
          | (exact absurd h12 (by simp))
          | (exact absurd h23 (by simp))
          | (exact ih t2 t3 h12 h23)

theorem entryLt_trans {p q r : List Nat × Value} (h1 : entryLt p q) (h2 : entryLt q r) :
    entryLt p r :=
  lexCmp_trans_lt _ _ _ h1 h2

theorem keysAscendingb_pairwise : ∀ kvs, keysAscendingb kvs = true → List.Pairwise entryLt kvs := by
  intro kvs
  induction kvs with
  | nil => intro _; exact List.Pairwise.nil
  | cons p t ih =>
    intro h
    cases t with
    | nil => simp
    | cons q r =>
      simp only [keysAscendingb, Bool.and_eq_true, decide_eq_true_eq] at h
      obtain ⟨hpq, hrest⟩ := h
      have hqr := ih hrest
      refine List.Pairwise.cons ?_ hqr
      have hpq2 : entryLt p q := hpq
      intro x hx
      rcases List.mem_cons.mp hx with rfl | hx
      · exact hpq2
      · exact entryLt_trans hpq2 ((List.pairwise_cons.mp hqr).1 x hx)

theorem btreeInsert_append_of_lt (k : List Nat) (v : Value) :
    ∀ acc, (∀ p ∈ acc, lexCmp p.1 k = .lt) → btreeInsert k v acc = acc ++ [(k, v)] := by
  intro acc
  induction acc with
  | nil => intro _; rfl
  | cons p t ih =>
    intro h
    obtain ⟨k2, v2⟩ := p
    have hp : lexCmp k2 k = .lt := h (k2, v2) (by simp)
    have hgt : lexCmp k k2 = .gt := (lexCmp_lt_gt k2 k).mp hp
    rw [btreeInsert, hgt, ih (fun p hp2 => h p (List.mem_cons_of_mem _ hp2))]
    simp

theorem foldl_btreeInsert_sorted : ∀ l acc, List.Pairwise entryLt (acc ++ l) →
    List.foldl (fun a kv => btreeInsert kv.1 kv.2 a) acc l = acc ++ l := by
  intro l
  induction l with
  | nil => intro acc _; simp
  | cons kv t ih =>
    intro acc h
    rw [List.foldl_cons]
    have hlt : ∀ p ∈ acc, lexCmp p.1 kv.1 = .lt := by
      intro p hp
      exact (List.pairwise_append.mp h).2.2 p hp kv (by simp)
    rw [btreeInsert_append_of_lt kv.1 kv.2 acc hlt]
    have hperm : (acc ++ [kv]) ++ t = acc ++ kv :: t := by simp
    rw [ih (acc ++ [kv]) (by rw [hperm]; exact h), hperm]

theorem mkBTree_sorted_id (l : List (List Nat × Value)) (h : List.Pairwise entryLt l) :
    mkBTree l = l := by
  rw [mkBTree, foldl_btreeInsert_sorted l [] (by simpa using h)]
  simp

theorem mkBTree_keysAscendingb_id (l : List (List Nat × Value)) (h : keysAscendingb l = true) :
    mkBTree l = l :=
  mkBTree_sorted_id l (keysAscendingb_pairwise l h)

theorem btreeInsert_mem (k : List Nat) (v : Value) :
    ∀ l x, x ∈ btreeInsert k v l → x = (k, v) ∨ x ∈ l := by
  intro l
  induction l with
  | nil => intro x hx; simp [btreeInsert] at hx; exact Or.inl hx
  | cons p t ih =>
    intro x hx
    obtain ⟨k2, v2⟩ := p
    rw [btreeInsert] at hx
    cases hcmp : lexCmp k k2 with
    | lt => rw [hcmp] at hx; rcases List.mem_cons.mp hx with rfl | hx
            · exact Or.inl rfl
            · exact Or.inr hx
    | eq => rw [hcmp] at hx; rcases List.mem_cons.mp hx with rfl | hx
            · exact Or.inl rfl
            · exact Or.inr (List.mem_cons_of_mem _ hx)
    | gt => rw [hcmp] at hx
            rcases List.mem_cons.mp hx with rfl | hx
            · exact Or.inr (by simp)
            · rcases ih x hx with h1 | h1
              · exact Or.inl h1
              · exact Or.inr (List.mem_cons_of_mem _ h1)

theorem btreeInsert_pairwise (k : List Nat) (v : Value) :
    ∀ l, List.Pairwise entryLt l → List.Pairwise entryLt (btreeInsert k v l) := by
  intro l
  induction l with
  | nil => intro _; simp [btreeInsert]
  | cons p t ih =>
    intro h
    obtain ⟨k2, v2⟩ := p
    obtain ⟨hpt, ht⟩ := List.pairwise_cons.mp h
    rw [btreeInsert]
    cases hcmp : lexCmp k k2 with
    | lt =>
      have hlt : entryLt (k, v) (k2, v2) := hcmp
      refine List.Pairwise.cons ?_ h
      intro x hx
      rcases List.mem_cons.mp hx with rfl | hx
      · exact hlt
      · exact entryLt_trans hlt (hpt x hx)
    | eq =>
      have hk : k = k2 := lexCmp_eq_implies _ _ hcmp
      refine List.Pairwise.cons ?_ ht
      intro x hx
      have := hpt x hx
      simpa [entryLt, hk] using this
    | gt =>
      refine List.Pairwise.cons ?_ (ih ht)
      intro x hx
      rcases btreeInsert_mem k v t x hx with rfl | hx
      · exact (lexCmp_lt_gt k2 k).mpr hcmp
      · exact hpt x hx

theorem mkBTree_pairwise (l : List (List Nat × Value)) :
    List.Pairwise entryLt (mkBTree l) := by
  rw [mkBTree]
  have haux : ∀ (l2 : List (List Nat × Value)) acc, List.Pairwise entryLt acc →
      List.Pairwise entryLt (List.foldl (fun a kv => btreeInsert kv.1 kv.2 a) acc l2) := by
    intro l2
    induction l2 with
    | nil => intro acc h; simpa
    | cons kv t ih =>
      intro acc h
      rw [List.foldl_cons]
      exact ih _ (btreeInsert_pairwise kv.1 kv.2 acc h)
  exact haux l [] (by simp)

theorem alookup_none_of_lt (k : List Nat) :
    ∀ l, (∀ p ∈ l, lexCmp k p.1 = .lt) → alookup k l = none := by
  intro l
  induction l with
  | nil => intro _; rfl
  | cons p t ih =>
    intro h
    obtain ⟨k2, v2⟩ := p
    rw [alookup]
    have hlt : lexCmp k k2 = .lt := h (k2, v2) (by simp)
    have hne : k ≠ k2 := by
      intro hk
      rw [hk] at hlt
      rw [lexCmp_self] at hlt
      exact absurd hlt (by simp)
    rw [if_neg hne]
    exact ih (fun p hp => h p (List.mem_cons_of_mem _ hp))

theorem alookup_cons_self (k : List Nat) (v : Value) (t : List (List Nat × Value)) :
    alookup k ((k, v) :: t) = some v := by
  rw [alookup, if_pos rfl]

theorem sorted_alookup_ext : ∀ l1 l2 : List (List Nat × Value),
    List.Pairwise entryLt l1 → List.Pairwise entryLt l2 →
    (∀ k, alookup k l1 = alookup k l2) → l1 = l2 := by
  intro l1
  induction l1 with
  | nil =>
    intro l2 _ h2 hext
    cases l2 with
    | nil => rfl
    | cons p t =>
      obtain ⟨k2, v2⟩ := p
      have := hext k2
      rw [alookup_cons_self] at this
      simp [alookup] at this
  | cons p t1 ih =>
    intro l2 h1 h2 hext
    obtain ⟨k1, v1⟩ := p
    cases l2 with
    | nil =>
      have := hext k1
      rw [alookup_cons_self] at this
      simp [alookup] at this
    | cons q t2 =>
      obtain ⟨k2, v2⟩ := q
      obtain ⟨hpt1, ht1⟩ := List.pairwise_cons.mp h1
      obtain ⟨hpt2, ht2⟩ := List.pairwise_cons.mp h2
      have hk : k1 = k2 := by
        cases hcmp : lexCmp k1 k2 with
        | eq => exact lexCmp_eq_implies _ _ hcmp
        | lt =>
          exfalso
          have hl : alookup k1 ((k2, v2) :: t2) = none := by
            apply alookup_none_of_lt
            intro x hx
            rcases List.mem_cons.mp hx with rfl | hx
            · exact hcmp
            · exact lexCmp_trans_lt _ _ _ hcmp (hpt2 x hx)
          have := hext k1
          rw [alookup_cons_self, hl] at this
          exact absurd this (by simp)
        | gt =>
          exfalso
          have hcmp2 : lexCmp k2 k1 = .lt := (lexCmp_lt_gt k2 k1).mpr hcmp
          have hl : alookup k2 ((k1, v1) :: t1) = none := by
            apply alookup_none_of_lt
            intro x hx
            rcases List.mem_cons.mp hx with rfl | hx
            · exact hcmp2
            · exact lexCmp_trans_lt _ _ _ hcmp2 (hpt1 x hx)
          have := hext k2
          rw [alookup_cons_self, hl] at this
          exact absurd this (by simp)
      subst hk
      have hv : v1 = v2 := by
        have := hext k1
        rw [alookup_cons_self, alookup_cons_self] at this
        exact Option.some.inj this
      subst hv
      have hself1 : alookup k1 t1 = none := by
        apply alookup_none_of_lt
        intro x hx
        exact hpt1 x hx
      have hself2 : alookup k1 t2 = none := by
        apply alookup_none_of_lt
        intro x hx
        exact hpt2 x hx
      have htl : t1 = t2 := by
        apply ih t2 ht1 ht2
        intro k
        by_cases hkk : k = k1
        · rw [hkk, hself1, hself2]
        · have := hext k
          rw [alookup, if_neg hkk, alookup, if_neg hkk] at this
          exact this
      rw [htl]

/-! ## Encoding length facts -/

theorem encode_length_pos (v : Value) : 1 ≤ (encode v).length := by
  cases v with
  | none => simp [encode, visit_none]
  | i64 v => rw [encode, visit_i64]; split_ifs <;> simp
  | u64 v => rw [encode, visit_u64, visit_i64]; split_ifs <;> simp
  | f64 bits => simp [encode, visit_f64]
  | bool b => cases b <;> simp [encode, visit_bool]
  | str s =>
    rw [encode, visit_str]
    split_ifs
    · simp
    · simp
      omega
  | list xs =>
    rw [encode]
    simp only [visit_seq]
    split_ifs <;> simp
  | dict kvs =>
    rw [encode]
    simp only [visit_map]
    split_ifs <;> simp

theorem encodeList_cons_length (x : Value) (r : List Value) :
    (encodeList (x :: r)).length = (encode x).length + (encodeList r).length := by
  simp [encodeList]

theorem encodeKVs_cons_length (k : List Nat) (v : Value) (r : List (List Nat × Value)) :
    (encodeKVs ((k, v) :: r)).length =
      (visit_str k).length + (encode v).length + (encodeKVs r).length := by
  simp [encodeKVs]; omega

theorem visit_str_length_pos (s : List Nat) : 1 ≤ (visit_str s).length := by
  rw [visit_str]
  split_ifs
  · simp
  · simp
    omega

theorem intToBE_length (w : Nat) (v : Int) : (intToBE w v).length = w := by
  rw [intToBE]; exact natToBEBytes_length w _

/-! ## Round-trip lemmas for the leaf encoders -/

theorem decodeVal_encode_i64 (f : Nat) (pk : Option Nat) (rest : List Nat) (v : Int)
    (h1 : -(2 ^ 63) ≤ v) (h2 : v < 2 ^ 63) (h44 : v ≠ 44) :
    ∃ pk2, decodeVal (f + 1) ⟨pk, visit_i64 v ++ rest⟩ = (.ok (.i64 v), ⟨pk2, rest⟩) := by
  rw [visit_i64]
  split_ifs with ha hb hc hd he
  · refine ⟨some (69 - v).toNat, ?_⟩
    rw [show ([(69 - v).toNat] ++ rest) = (69 - v).toNat :: rest from rfl]
    rw [decodeVal_embedNeg f pk _ rest (by omega) (by omega)]
    have hv : (69 : Int) - ((69 - v).toNat : Int) = v := by omega
    rw [hv]
  · refine ⟨some v.toNat, ?_⟩
    rw [show ([v.toNat] ++ rest) = v.toNat :: rest from rfl]
    rw [decodeVal_embedPos f pk _ rest (by omega)]
    have hv : ((v.toNat : Nat) : Int) = v := by omega
    rw [hv]
  · refine ⟨some 62, ?_⟩
    rw [List.cons_append,
      decodeVal_intArm f pk 1 62 (intToBE 1 v) rest (by simp) (intToBE_length 1 v),
      intFromBE_intToBE 1 v (by norm_num; omega) (by norm_num; omega)]
  · refine ⟨some 63, ?_⟩
    rw [List.cons_append,
      decodeVal_intArm f pk 2 63 (intToBE 2 v) rest (by simp) (intToBE_length 2 v),
      intFromBE_intToBE 2 v (by norm_num; omega) (by norm_num; omega)]
  · refine ⟨some 64, ?_⟩
    rw [List.cons_append,
      decodeVal_intArm f pk 4 64 (intToBE 4 v) rest (by simp) (intToBE_length 4 v),
      intFromBE_intToBE 4 v (by norm_num; omega) (by norm_num; omega)]
  · refine ⟨some 65, ?_⟩
    rw [List.cons_append,
      decodeVal_intArm f pk 8 65 (intToBE 8 v) rest (by simp) (intToBE_length 8 v),
      intFromBE_intToBE 8 v (by norm_num; omega) (by norm_num; omega)]

theorem decodeVal_encode_f64 (f : Nat) (pk : Option Nat) (rest : List Nat) (bits : Nat)
    (h : bits < 2 ^ 64) :
    decodeVal (f + 1) ⟨pk, visit_f64 bits ++ rest⟩ = (.ok (.f64 bits), ⟨some 44, rest⟩) := by
  rw [visit_f64, List.cons_append,
    decodeVal_f64Arm f pk _ rest (natToBEBytes_length 8 _), beBytesToNat_natToBEBytes]
  have hm : bits % 256 ^ 8 = bits := Nat.mod_eq_of_lt (by norm_num; omega)
  rw [hm]

theorem decodeListFixed_succ (fuel n : Nat) (d : Decoder) :
    decodeListFixed (fuel + 1) (n + 1) d =
      (match decodeVal fuel d with
       | (.ok v, d1) =>
         (match decodeListFixed fuel n d1 with
          | (.ok vs, d2) => (.ok (v :: vs), d2)
          | (.error e, d2) => (.error e, d2))
       | (.error e, d1) => (.error e, d1)) := rfl

/-- One-step unfolding of `decodeVal` on a byte `b` at the head of the
input: the decoder's full dispatch, byte `b` already in the peek buffer. -/
theorem decodeVal_succ_cons (f : Nat) (pk : Option Nat) (b : Nat) (l : List Nat) :
    decodeVal (f + 1) ⟨pk, b :: l⟩ =
      (if 48 ≤ b ∧ b ≤ 57 then
        match parse_string ⟨some b, l⟩ with
        | (.ok s, d2) => (.ok (.str s), d2)
        | (.error e, d2) => (.error e, d2)
      else if 128 ≤ b ∧ b ≤ 191 then
        match parse_embed_string b ⟨some b, l⟩ with
        | (.ok s, d2) => (.ok (.str s), d2)
        | (.error e, d2) => (.error e, d2)
      else if b = 62 then
        match parse_int 1 ⟨some b, l⟩ with
        | (.ok v, d2) => (.ok (.i64 v), d2)
        | (.error e, d2) => (.error e, d2)
      else if b = 63 then
        match parse_int 2 ⟨some b, l⟩ with
        | (.ok v, d2) => (.ok (.i64 v), d2)
        | (.error e, d2) => (.error e, d2)
      else if b = 64 then
        match parse_int 4 ⟨some b, l⟩ with
        | (.ok v, d2) => (.ok (.i64 v), d2)
        | (.error e, d2) => (.error e, d2)
      else if b = 65 then
        match parse_int 8 ⟨some b, l⟩ with
        | (.ok v, d2) => (.ok (.i64 v), d2)
        | (.error e, d2) => (.error e, d2)
      else if b = 66 then
        match read_exact 4 ⟨some b, l⟩ with
        | (.ok bs, d2) => (.ok (.f64 (f32BitsToF64Bits (beBytesToNat bs))), d2)
        | (.error e, d2) => (.error e, d2)
      else if b = 44 then
        match read_exact 8 ⟨some b, l⟩ with
        | (.ok bs, d2) => (.ok (.f64 (beBytesToNat bs)), d2)
        | (.error e, d2) => (.error e, d2)
      else if b ≤ 43 then (.ok (.i64 (b : Int)), ⟨some b, l⟩)
      else if 70 ≤ b ∧ b ≤ 101 then (.ok (.i64 (69 - (b : Int))), ⟨some b, l⟩)
      else if b = 67 then (.ok (.bool true), ⟨some b, l⟩)
      else if b = 68 then (.ok (.bool false), ⟨some b, l⟩)
      else if b = 69 then (.ok .none, ⟨some b, l⟩)
      else if b = 59 then
        match decodeListOpen f ⟨some b, l⟩ with
        | (.ok xs, d2) => (.ok (.list xs), d2)
        | (.error e, d2) => (.error e, d2)
      else if 192 ≤ b ∧ b ≤ 255 then
        match decodeListFixed f (b - 192) ⟨none, l⟩ with
        | (.ok xs, d2) => (.ok (.list xs), d2)
        | (.error e, d2) => (.error e, d2)
      else if b = 60 then
        match decodeDictOpen f ⟨some b, l⟩ with
        | (.ok kvs, d2) => (.ok (.dict (mkBTree kvs)), d2)
        | (.error e, d2) => (.error e, d2)
      else if 102 ≤ b ∧ b ≤ 126 then
        match decodeDictFixed f (b - 102) ⟨none, l⟩ with
        | (.ok kvs, d2) => (.ok (.dict (mkBTree kvs)), d2)
        | (.error e, d2) => (.error e, d2)
      else if b = 127 then (.error .endOfStruct, ⟨some b, l⟩)
      else (.error .malformed, ⟨some b, l⟩)) := rfl

theorem decodeVal_zero (d : Decoder) : decodeVal 0 d = (.error .endOfStream, d) := rfl

theorem decodeListOpen_zero (d : Decoder) :
    decodeListOpen 0 d = (.error .endOfStream, d) := rfl

theorem decodeDictOpen_zero (d : Decoder) :
    decodeDictOpen 0 d = (.error .endOfStream, d) := rfl

theorem decodeListFixed_zero (fuel : Nat) (d : Decoder) :
    decodeListFixed fuel 0 d = (.ok [], d) := by cases fuel <;> rfl

theorem decodeListFixed_fuelZero (n : Nat) (d : Decoder) :
    decodeListFixed 0 (n + 1) d = (.error .endOfStream, d) := rfl

theorem decodeDictFixed_zero (fuel : Nat) (d : Decoder) :
    decodeDictFixed fuel 0 d = (.ok [], d) := by cases fuel <;> rfl

theorem decodeDictFixed_fuelZero (n : Nat) (d : Decoder) :
    decodeDictFixed 0 (n + 1) d = (.error .endOfStream, d) := rfl

theorem decodeDictFixed_succ (fuel n : Nat) (d : Decoder) :
    decodeDictFixed (fuel + 1) (n + 1) d =
      (match decodeKeyStr d with
       | (.ok k, d1) =>
         (match decodeVal fuel d1 with
          | (.ok v, d2) =>
            (match decodeDictFixed fuel n d2 with
             | (.ok kvs, d3) => (.ok ((k, v) :: kvs), d3)
             | (.error e, d3) => (.error e, d3))
          | (.error e, d2) => (.error e, d2))
       | (.error e, d1) => (.error e, d1)) := rfl

/-! ## The master round-trip theorem

A single induction on fuel, simultaneously for plain values, open/fixed
lists and open/fixed maps. The fuel bounds are stated in terms of the
encoding's length; `decode` supplies `2 * input.length + 2`, which satisfies
all of them. `roundSafe` excludes the two value shapes the codec cannot
round-trip (`U64` nodes and the integer 44, see `c2` and `c1`). -/

theorem decode_encode_mutual : ∀ fuel : Nat,
    (∀ (v : Value) (pk : Option Nat) (rest : List Nat),
        WFb v = true → roundSafe v = true → 2 * (encode v).length - 1 ≤ fuel →
        ∃ pk2, decodeVal fuel ⟨pk, encode v ++ rest⟩ = (.ok v, ⟨pk2, rest⟩))
    ∧ (∀ (xs : List Value) (pk : Option Nat) (rest : List Nat),
        WFbList xs = true → roundSafeList xs = true → 2 * (encodeList xs).length + 2 ≤ fuel →
        decodeListOpen fuel ⟨pk, encodeList xs ++ 127 :: rest⟩ = (.ok xs, ⟨none, rest⟩))
    ∧ (∀ (xs : List Value) (pk : Option Nat) (rest : List Nat),
        WFbList xs = true → roundSafeList xs = true → 2 * (encodeList xs).length ≤ fuel →
        ∃ pk2, decodeListFixed fuel xs.length ⟨pk, encodeList xs ++ rest⟩ = (.ok xs, ⟨pk2, rest⟩))
    ∧ (∀ (kvs : List (List Nat × Value)) (pk : Option Nat) (rest : List Nat),
        WFbKVs kvs = true → roundSafeKVs kvs = true → 2 * (encodeKVs kvs).length + 2 ≤ fuel →
        decodeDictOpen fuel ⟨pk, encodeKVs kvs ++ 127 :: rest⟩ = (.ok kvs, ⟨none, rest⟩))
    ∧ (∀ (kvs : List (List Nat × Value)) (pk : Option Nat) (rest : List Nat),
        WFbKVs kvs = true → roundSafeKVs kvs = true → 2 * (encodeKVs kvs).length ≤ fuel →
        ∃ pk2, decodeDictFixed fuel kvs.length ⟨pk, encodeKVs kvs ++ rest⟩ = (.ok kvs, ⟨pk2, rest⟩)) := by
  intro fuel
  induction fuel with
  | zero =>
    refine ⟨?_, ?_, ?_, ?_, ?_⟩
    · intro v pk rest _ _ hfuel
      exact absurd hfuel (by have := encode_length_pos v; omega)
    · intro xs pk rest _ _ hfuel
      exact absurd hfuel (by omega)
    · intro xs pk rest _ _ hfuel
      cases xs with
      | nil => exact ⟨pk, rfl⟩
      | cons x r =>
        rw [encodeList_cons_length] at hfuel
        exact absurd hfuel (by have := encode_length_pos x; omega)
    · intro kvs pk rest _ _ hfuel
      exact absurd hfuel (by omega)
    · intro kvs pk rest _ _ hfuel
      cases kvs with
      | nil => exact ⟨pk, rfl⟩
      | cons kv r =>
        obtain ⟨k, v⟩ := kv
        rw [encodeKVs_cons_length] at hfuel
        exact absurd hfuel (by have := visit_str_length_pos k; omega)
  | succ f ih =>
    obtain ⟨ihA, ihB, ihC, ihD, ihE⟩ := ih
    refine ⟨?_, ?_, ?_, ?_, ?_⟩
    · -- values
      intro v pk rest hwf hrs hfuel
      cases v with
      | none => exact ⟨some 69, decodeVal_none f pk rest⟩
      | i64 v =>
        simp only [WFb, Bool.and_eq_true, decide_eq_true_eq] at hwf
        simp only [roundSafe, decide_eq_true_eq] at hrs
        exact decodeVal_encode_i64 f pk rest v hwf.1 hwf.2 hrs
      | u64 v => simp [roundSafe] at hrs
      | f64 bits =>
        simp only [WFb, decide_eq_true_eq] at hwf
        exact ⟨some 44, decodeVal_encode_f64 f pk rest bits hwf⟩
      | bool b =>
        cases b
        · exact ⟨some 68, decodeVal_false f pk rest⟩
        · exact ⟨some 67, decodeVal_true f pk rest⟩
      | str s => exact ⟨none, decodeVal_str f pk s rest⟩
      | list xs =>
        have hwfl : WFbList xs = true := by simpa [WFb] using hwf
        have hrsl : roundSafeList xs = true := by simpa [roundSafe] using hrs
        rw [show encode (Value.list xs) = visit_seq (some xs.length) (encodeList xs) from rfl]
          at hfuel ⊢
        rw [visit_seq] at hfuel ⊢
        by_cases hlen : xs.length < 64
        · rw [if_pos hlen] at hfuel ⊢
          rw [List.cons_append,
            decodeVal_listFixedArm f pk (192 + xs.length) _ (by omega) (by omega)]
          have hn : 192 + xs.length - 192 = xs.length := by omega
          rw [hn]
          simp only [List.length_cons] at hfuel
          obtain ⟨pk2, hdec⟩ := ihC xs none rest hwfl hrsl (by omega)
          rw [hdec]
          exact ⟨pk2, rfl⟩
        · rw [if_neg hlen] at hfuel ⊢
          have hshape : (59 :: encodeList xs ++ [127]) ++ rest =
              59 :: (encodeList xs ++ 127 :: rest) := by simp
          rw [hshape, decodeVal_listOpenArm]
          simp only [List.length_cons, List.length_append] at hfuel
          rw [ihB xs (some 59) rest hwfl hrsl (by simp at hfuel; omega)]
          exact ⟨none, rfl⟩
      | dict kvs =>
        simp only [WFb, Bool.and_eq_true] at hwf
        obtain ⟨hasc, hwfk⟩ := hwf
        have hrsk : roundSafeKVs kvs = true := by simpa [roundSafe] using hrs
        have hmk : mkBTree kvs = kvs := mkBTree_keysAscendingb_id kvs hasc
        rw [show encode (Value.dict kvs) = visit_map (some kvs.length) (encodeKVs kvs) from rfl]
          at hfuel ⊢
        rw [visit_map] at hfuel ⊢
        by_cases hlen : kvs.length < 25
        · rw [if_pos hlen] at hfuel ⊢
          rw [List.cons_append,
            decodeVal_dictFixedArm f pk (102 + kvs.length) _ (by omega) (by omega)]
          have hn : 102 + kvs.length - 102 = kvs.length := by omega
          rw [hn]
          simp only [List.length_cons] at hfuel
          obtain ⟨pk2, hdec⟩ := ihE kvs none rest hwfk hrsk (by omega)
          rw [hdec]
          refine ⟨pk2, ?_⟩
          show (Except.ok (Value.dict (mkBTree kvs)), (⟨pk2, rest⟩ : Decoder)) =
            (Except.ok (Value.dict kvs), (⟨pk2, rest⟩ : Decoder))
          rw [hmk]
        · rw [if_neg hlen] at hfuel ⊢
          have hshape : (60 :: encodeKVs kvs ++ [127]) ++ rest =
              60 :: (encodeKVs kvs ++ 127 :: rest) := by simp
          rw [hshape, decodeVal_dictOpenArm]
          simp only [List.length_cons, List.length_append] at hfuel
          rw [ihD kvs (some 60) rest hwfk hrsk (by simp at hfuel; omega)]
          refine ⟨none, ?_⟩
          show (Except.ok (Value.dict (mkBTree kvs)), (⟨none, rest⟩ : Decoder)) =
            (Except.ok (Value.dict kvs), (⟨none, rest⟩ : Decoder))
          rw [hmk]
    · -- open lists
      intro xs pk rest hwf hrs hfuel
      cases xs with
      | nil =>
        simp only [encodeList, List.length_nil] at hfuel
        obtain ⟨f2, rfl⟩ : ∃ f2, f = f2 + 1 := ⟨f - 1, by omega⟩
        rfl
      | cons x r =>
        simp only [WFbList, Bool.and_eq_true] at hwf
        simp only [roundSafeList, Bool.and_eq_true] at hrs
        have hposx := encode_length_pos x
        rw [encodeList_cons_length] at hfuel
        simp only [encodeList, List.append_assoc]
        obtain ⟨pk2, hdec⟩ := ihA x pk (encodeList r ++ 127 :: rest) hwf.1 hrs.1 (by omega)
        simp only [decodeListOpen, hdec, ihB r pk2 rest hwf.2 hrs.2 (by omega)]
    · -- fixed lists
      intro xs pk rest hwf hrs hfuel
      cases xs with
      | nil => exact ⟨pk, rfl⟩
      | cons x r =>
        simp only [WFbList, Bool.and_eq_true] at hwf
        simp only [roundSafeList, Bool.and_eq_true] at hrs
        have hposx := encode_length_pos x
        rw [encodeList_cons_length] at hfuel
        simp only [encodeList, List.append_assoc, List.length_cons]
        obtain ⟨pk2, hdec⟩ := ihA x pk (encodeList r ++ rest) hwf.1 hrs.1 (by omega)
        obtain ⟨pk3, hdec2⟩ := ihC r pk2 rest hwf.2 hrs.2 (by omega)
        refine ⟨pk3, ?_⟩
        rw [decodeListFixed_succ]
        simp only [hdec, hdec2]
    · -- open dicts
      intro kvs pk rest hwf hrs hfuel
      cases kvs with
      | nil =>
        obtain ⟨f2, rfl⟩ : ∃ f2, f = f2 + 1 := ⟨f - 1, by omega⟩
        rfl
      | cons kv r =>
        obtain ⟨k, v⟩ := kv
        simp only [WFbKVs, Bool.and_eq_true] at hwf
        simp only [roundSafeKVs, Bool.and_eq_true] at hrs
        have hposx := encode_length_pos v
        have hposk := visit_str_length_pos k
        rw [encodeKVs_cons_length] at hfuel
        simp only [encodeKVs, List.append_assoc]
        obtain ⟨pk2, hdec⟩ :=
          ihA v none (encodeKVs r ++ 127 :: rest) hwf.1.2 hrs.1 (by omega)
        simp only [decodeDictOpen, decodeKeyStr_enc, hdec,
          ihD r pk2 rest hwf.2 hrs.2 (by omega)]
    · -- fixed dicts
      intro kvs pk rest hwf hrs hfuel
      cases kvs with
      | nil => exact ⟨pk, rfl⟩
      | cons kv r =>
        obtain ⟨k, v⟩ := kv
        simp only [WFbKVs, Bool.and_eq_true] at hwf
        simp only [roundSafeKVs, Bool.and_eq_true] at hrs
        have hposx := encode_length_pos v
        have hposk := visit_str_length_pos k
        rw [encodeKVs_cons_length] at hfuel
        simp only [encodeKVs, List.append_assoc, List.length_cons]
        obtain ⟨pk2, hdec⟩ := ihA v none (encodeKVs r ++ rest) hwf.1.2 hrs.1 (by omega)
        obtain ⟨pk3, hdec2⟩ := ihE r pk2 rest hwf.2 hrs.2 (by omega)
        refine ⟨pk3, ?_⟩
        rw [decodeDictFixed_succ]
        simp only [decodeKeyStr_enc, hdec, hdec2]

/-! ## No `U64` ever comes out of the decoder -/

theorem btreeInsert_noU64 (k : List Nat) (v : Value) :
    ∀ l, noU64KVs l = true → noU64 v = true → noU64KVs (btreeInsert k v l) = true := by
  intro l
  induction l with
  | nil => intro _ hv; simp [btreeInsert, noU64KVs, hv]
  | cons p t ih =>
    intro hl hv
    obtain ⟨k2, v2⟩ := p
    simp only [noU64KVs, Bool.and_eq_true] at hl
    rw [btreeInsert]
    cases lexCmp k k2 with
    | lt => simp only [noU64KVs, Bool.and_eq_true]
            exact ⟨hv, hl.1, (by simpa [noU64KVs] using hl.2)⟩
    | eq => simp only [noU64KVs, Bool.and_eq_true]
            exact ⟨hv, hl.2⟩
    | gt => simp only [noU64KVs, Bool.and_eq_true]
            exact ⟨hl.1, ih hl.2 hv⟩

theorem mkBTree_noU64 (l : List (List Nat × Value)) (h : noU64KVs l = true) :
    noU64KVs (mkBTree l) = true := by
  rw [mkBTree]
  have haux : ∀ (l2 : List (List Nat × Value)) acc, noU64KVs l2 = true → noU64KVs acc = true →
      noU64KVs (List.foldl (fun a kv => btreeInsert kv.1 kv.2 a) acc l2) = true := by
    intro l2
    induction l2 with
    | nil => intro acc _ hacc; simpa
    | cons kv t ih =>
      intro acc hl hacc
      obtain ⟨k, v⟩ := kv
      simp only [noU64KVs, Bool.and_eq_true] at hl
      rw [List.foldl_cons]
      exact ih _ hl.2 (btreeInsert_noU64 k v acc hacc hl.1)
  exact haux l [] h rfl

theorem decode_noU64_mutual : ∀ fuel : Nat,
    (∀ (d : Decoder) (v : Value) (d2 : Decoder),
        decodeVal fuel d = (.ok v, d2) → noU64 v = true)
    ∧ (∀ (d : Decoder) (xs : List Value) (d2 : Decoder),
        decodeListOpen fuel d = (.ok xs, d2) → noU64List xs = true)
    ∧ (∀ (n : Nat) (d : Decoder) (xs : List Value) (d2 : Decoder),
        decodeListFixed fuel n d = (.ok xs, d2) → noU64List xs = true)
    ∧ (∀ (d : Decoder) (kvs : List (List Nat × Value)) (d2 : Decoder),
        decodeDictOpen fuel d = (.ok kvs, d2) → noU64KVs kvs = true)
    ∧ (∀ (n : Nat) (d : Decoder) (kvs : List (List Nat × Value)) (d2 : Decoder),
        decodeDictFixed fuel n d = (.ok kvs, d2) → noU64KVs kvs = true) := by
  intro fuel
  induction fuel with
  | zero =>
    refine ⟨?_, ?_, ?_, ?_, ?_⟩
    · intro d v d2 h; rw [decodeVal_zero] at h; exact absurd h (by simp)
    · intro d xs d2 h; rw [decodeListOpen_zero] at h; exact absurd h (by simp)
    · intro n d xs d2 h
      cases n with
      | zero =>
        rw [decodeListFixed_zero] at h
        simp only [Prod.mk.injEq, Except.ok.injEq] at h
        rw [← h.1]; rfl
      | succ n => rw [decodeListFixed_fuelZero] at h; exact absurd h (by simp)
    · intro d kvs d2 h; rw [decodeDictOpen_zero] at h; exact absurd h (by simp)
    · intro n d kvs d2 h
      cases n with
      | zero =>
        rw [decodeDictFixed_zero] at h
        simp only [Prod.mk.injEq, Except.ok.injEq] at h
        rw [← h.1]; rfl
      | succ n => rw [decodeDictFixed_fuelZero] at h; exact absurd h (by simp)
  | succ f ih =>
    obtain ⟨ihA, ihB, ihC, ihD, ihE⟩ := ih
    refine ⟨?_, ?_, ?_, ?_, ?_⟩
    · -- decodeVal
      intro d v d2 h
      obtain ⟨pk, input⟩ := d
      cases input with
      | nil => rw [decodeVal_nil] at h; exact absurd h (by simp)
      | cons b l =>
        rw [decodeVal_succ_cons] at h
        by_cases hc1 : 48 ≤ b ∧ b ≤ 57
        · rw [if_pos hc1] at h
          rcases hres : parse_string ⟨some b, l⟩ with ⟨res, d3⟩
          rw [hres] at h
          cases res with
          | ok s =>
            simp only [Prod.mk.injEq, Except.ok.injEq] at h
            rw [← h.1]; rfl
          | error e => exact absurd h (by simp)
        · rw [if_neg hc1] at h
          by_cases hc2 : 128 ≤ b ∧ b ≤ 191
          · rw [if_pos hc2] at h
            rcases hres : parse_embed_string b ⟨some b, l⟩ with ⟨res, d3⟩
            rw [hres] at h
            cases res with
            | ok s =>
              simp only [Prod.mk.injEq, Except.ok.injEq] at h
              rw [← h.1]; rfl
            | error e => exact absurd h (by simp)
          · rw [if_neg hc2] at h
            by_cases hc3 : b = 62
            · rw [if_pos hc3] at h
              rcases hres : parse_int 1 ⟨some b, l⟩ with ⟨res, d3⟩
              rw [hres] at h
              cases res with
              | ok s =>
                simp only [Prod.mk.injEq, Except.ok.injEq] at h
                rw [← h.1]; rfl
              | error e => exact absurd h (by simp)
            · rw [if_neg hc3] at h
              by_cases hc4 : b = 63
              · rw [if_pos hc4] at h
                rcases hres : parse_int 2 ⟨some b, l⟩ with ⟨res, d3⟩
                rw [hres] at h
                cases res with
                | ok s =>
                  simp only [Prod.mk.injEq, Except.ok.injEq] at h
                  rw [← h.1]; rfl
                | error e => exact absurd h (by simp)
              · rw [if_neg hc4] at h
                by_cases hc5 : b = 64
                · rw [if_pos hc5] at h
                  rcases hres : parse_int 4 ⟨some b, l⟩ with ⟨res, d3⟩
                  rw [hres] at h
                  cases res with
                  | ok s =>
                    simp only [Prod.mk.injEq, Except.ok.injEq] at h
                    rw [← h.1]; rfl
                  | error e => exact absurd h (by simp)
                · rw [if_neg hc5] at h
                  by_cases hc6 : b = 65
                  · rw [if_pos hc6] at h
                    rcases hres : parse_int 8 ⟨some b, l⟩ with ⟨res, d3⟩
                    rw [hres] at h
                    cases res with
                    | ok s =>
                      simp only [Prod.mk.injEq, Except.ok.injEq] at h
                      rw [← h.1]; rfl
                    | error e => exact absurd h (by simp)
                  · rw [if_neg hc6] at h
                    by_cases hc7 : b = 66
                    · rw [if_pos hc7] at h
                      rcases hres : read_exact 4 ⟨some b, l⟩ with ⟨res, d3⟩
                      rw [hres] at h
                      cases res with
                      | ok s =>
                        simp only [Prod.mk.injEq, Except.ok.injEq] at h
                        rw [← h.1]; rfl
                      | error e => exact absurd h (by simp)
                    · rw [if_neg hc7] at h
                      by_cases hc8 : b = 44
                      · rw [if_pos hc8] at h
                        rcases hres : read_exact 8 ⟨some b, l⟩ with ⟨res, d3⟩
                        rw [hres] at h
                        cases res with
                        | ok s =>
                          simp only [Prod.mk.injEq, Except.ok.injEq] at h
                          rw [← h.1]; rfl
                        | error e => exact absurd h (by simp)
                      · rw [if_neg hc8] at h
                        by_cases hc9 : b ≤ 43
                        · rw [if_pos hc9] at h
                          simp only [Prod.mk.injEq, Except.ok.injEq] at h
                          rw [← h.1]; rfl
                        · rw [if_neg hc9] at h
                          by_cases hc10 : 70 ≤ b ∧ b ≤ 101
                          · rw [if_pos hc10] at h
                            simp only [Prod.mk.injEq, Except.ok.injEq] at h
                            rw [← h.1]; rfl
                          · rw [if_neg hc10] at h
                            by_cases hc11 : b = 67
                            · rw [if_pos hc11] at h
                              simp only [Prod.mk.injEq, Except.ok.injEq] at h
                              rw [← h.1]; rfl
                            · rw [if_neg hc11] at h
                              by_cases hc12 : b = 68
                              · rw [if_pos hc12] at h
                                simp only [Prod.mk.injEq, Except.ok.injEq] at h
                                rw [← h.1]; rfl
                              · rw [if_neg hc12] at h
                                by_cases hc13 : b = 69
                                · rw [if_pos hc13] at h
                                  simp only [Prod.mk.injEq, Except.ok.injEq] at h
                                  rw [← h.1]; rfl
                                · rw [if_neg hc13] at h
                                  by_cases hc14 : b = 59
                                  · rw [if_pos hc14] at h
                                    rcases hres : decodeListOpen f ⟨some b, l⟩ with ⟨res, d3⟩
                                    rw [hres] at h
                                    cases res with
                                    | ok xs =>
                                      simp only [Prod.mk.injEq, Except.ok.injEq] at h
                                      rw [← h.1]
                                      exact ihB _ xs d3 hres
                                    | error e => exact absurd h (by simp)
                                  · rw [if_neg hc14] at h
                                    by_cases hc15 : 192 ≤ b ∧ b ≤ 255
                                    · rw [if_pos hc15] at h
                                      rcases hres : decodeListFixed f (b - 192) ⟨none, l⟩ with ⟨res, d3⟩
                                      rw [hres] at h
                                      cases res with
                                      | ok xs =>
                                        simp only [Prod.mk.injEq, Except.ok.injEq] at h
                                        rw [← h.1]
                                        exact ihC _ _ xs d3 hres
                                      | error e => exact absurd h (by simp)
                                    · rw [if_neg hc15] at h
                                      by_cases hc16 : b = 60
                                      · rw [if_pos hc16] at h
                                        rcases hres : decodeDictOpen f ⟨some b, l⟩ with ⟨res, d3⟩
                                        rw [hres] at h
                                        cases res with
                                        | ok kvs =>
                                          simp only [Prod.mk.injEq, Except.ok.injEq] at h
                                          rw [← h.1]
                                          exact mkBTree_noU64 kvs (ihD _ kvs d3 hres)
                                        | error e => exact absurd h (by simp)
                                      · rw [if_neg hc16] at h
                                        by_cases hc17 : 102 ≤ b ∧ b ≤ 126
                                        · rw [if_pos hc17] at h
                                          rcases hres : decodeDictFixed f (b - 102) ⟨none, l⟩ with ⟨res, d3⟩
                                          rw [hres] at h
                                          cases res with
                                          | ok kvs =>
                                            simp only [Prod.mk.injEq, Except.ok.injEq] at h
                                            rw [← h.1]
                                            exact mkBTree_noU64 kvs (ihE _ _ kvs d3 hres)
                                          | error e => exact absurd h (by simp)
                                        · rw [if_neg hc17] at h
                                          by_cases hc18 : b = 127
                                          · rw [if_pos hc18] at h
                                            exact absurd h (by simp)
                                          · rw [if_neg hc18] at h
                                            exact absurd h (by simp)
    · -- decodeListOpen
      intro d xs d2 h
      simp only [decodeListOpen] at h
      split at h
      case _ v d1 heq =>
        split at h
        case _ vs d3 heq2 =>
          simp only [Prod.mk.injEq, Except.ok.injEq] at h
          rw [← h.1]
          simp only [noU64List, Bool.and_eq_true]
          exact ⟨ihA _ v d1 heq, ihB _ vs d3 heq2⟩
        case _ => exact absurd h (by simp)
      case _ d1 heq =>
        split at h
        case _ b d3 heq2 =>
          split at h
          · simp only [Prod.mk.injEq, Except.ok.injEq] at h
            rw [← h.1]; rfl
          · exact absurd h (by simp)
        case _ => exact absurd h (by simp)
      case _ => exact absurd h (by simp)
    · -- decodeListFixed
      intro n d xs d2 h
      cases n with
      | zero =>
        rw [decodeListFixed_zero] at h
        simp only [Prod.mk.injEq, Except.ok.injEq] at h
        rw [← h.1]; rfl
      | succ n =>
        rw [decodeListFixed_succ] at h
        split at h
        case _ v d1 heq =>
          split at h
          case _ vs d3 heq2 =>
            simp only [Prod.mk.injEq, Except.ok.injEq] at h
            rw [← h.1]
            simp only [noU64List, Bool.and_eq_true]
            exact ⟨ihA _ v d1 heq, ihC n _ vs d3 heq2⟩
          case _ => exact absurd h (by simp)
        case _ => exact absurd h (by simp)
    · -- decodeDictOpen
      intro d kvs d2 h
      simp only [decodeDictOpen] at h
      split at h
      case _ k d1 heq =>
        split at h
        case _ v d3 heq2 =>
          split at h
          case _ kvs2 d4 heq3 =>
            simp only [Prod.mk.injEq, Except.ok.injEq] at h
            rw [← h.1]
            simp only [noU64KVs, Bool.and_eq_true]
            exact ⟨ihA _ v d3 heq2, ihD _ kvs2 d4 heq3⟩
          case _ => exact absurd h (by simp)
        case _ => exact absurd h (by simp)
      case _ d1 heq =>
        split at h
        case _ b d3 heq2 =>
          split at h
          · simp only [Prod.mk.injEq, Except.ok.injEq] at h
            rw [← h.1]; rfl
          · exact absurd h (by simp)
        case _ => exact absurd h (by simp)
      case _ => exact absurd h (by simp)
    · -- decodeDictFixed
      intro n d kvs d2 h
      cases n with
      | zero =>
        rw [decodeDictFixed_zero] at h
        simp only [Prod.mk.injEq, Except.ok.injEq] at h
        rw [← h.1]; rfl
      | succ n =>
        rw [decodeDictFixed_succ] at h
        split at h
        case _ k d1 heq =>
          split at h
          case _ v d3 heq2 =>
            split at h
            case _ kvs2 d4 heq3 =>
              simp only [Prod.mk.injEq, Except.ok.injEq] at h
              rw [← h.1]
              simp only [noU64KVs, Bool.and_eq_true]
              exact ⟨ihA _ v d3 heq2, ihE n _ kvs2 d4 heq3⟩
            case _ => exact absurd h (by simp)
          case _ => exact absurd h (by simp)
        case _ => exact absurd h (by simp)

/-! ## Claim theorems -/

/-- C1 (counterexample): the round trip `decode (encode v) = v` fails as
stated for all of `Value`: at `v = U64 0` the encoder writes the embedded
byte `0` and the decoder delivers it through the signed path, so the result
is `I64 0`, a different `Value` than `U64 0`. -/
theorem c1_counterexample :
    decode (encode (Value.u64 0)) = .ok (Value.i64 0) ∧ Value.i64 0 ≠ Value.u64 0 :=
  ⟨rfl, nofun⟩

/-- C1 (amended): for every well-formed Generic Value `v` (integers in the
`i64` range, 64-bit `f64`/`u64` payloads, byte-valued strings, strictly
sorted dictionary keys) that contains no `U64` node and no integer node
equal to `44`, decoding the byte sequence produced by encoding `v` succeeds
and yields `v` itself, for every variant of `Value` — `F64` payloads
compared by IEEE-754 bit pattern. (`U64` nodes come back as `I64`; the
integer 44 is broken by the encoder's inclusive `0...44` arm, see `c2`; on
NaN bit patterns Rust's `==` on the decoded `Value` would report `false`
even though the bits round-trip exactly.) -/
theorem c1_round_trip (v : Value) (hwf : WFb v = true) (hrs : roundSafe v = true) :
    decode (encode v) = .ok v := by
  obtain ⟨pk2, hdec⟩ :=
    (decode_encode_mutual (2 * (encode v).length + 2)).1 v none [] hwf hrs (by omega)
  rw [List.append_nil] at hdec
  rw [decode, hdec]

/-- C1 (witness): the amended round trip at a concrete nested value. -/
theorem c1_witness :
    decode (encode (Value.list [Value.i64 5, Value.str [97],
      Value.dict [([97], Value.bool true), ([98], Value.f64 123)]])) =
      .ok (Value.list [Value.i64 5, Value.str [97],
        Value.dict [([97], Value.bool true), ([98], Value.f64 123)]]) :=
  c1_round_trip _ rfl rfl

/-- C2 (code bug): the claim (and the spec, and the decoder's own constants
and tests) say the embedded-positive single-byte form covers only `0..=43`
and that `44` encodes as `[62, 44]`. The encoder's range pattern
`0...INT_POS_FIXED_COUNT` is inclusive with `INT_POS_FIXED_COUNT = 44`, so
`visit_i64 44 = [44]` — the byte 44 is the `F64` typecode, which the crate's
own decoder reads as an 8-byte float header and fails on (`UnexpectedEOF`),
while `[62, 44]` decodes to 44 exactly as the decoder test
`test_decode_int` expects. -/
theorem c2_encoder_embeds_44 :
    visit_i64 44 = [44]
    ∧ visit_i64 43 = [43]
    ∧ visit_i64 45 = [62, 45]
    ∧ decode [44] = .error .unexpectedEOF
    ∧ decode [62, 44] = .ok (.i64 44)
    ∧ decode (visit_i64 44) ≠ .ok (.i64 44) :=
  ⟨rfl, rfl, rfl, rfl, rfl, nofun⟩

/-- C3: decoding an open list (header 59) or open map (header 60) consumes
exactly its own single trailing sentinel byte 127 and leaves the cursor
(empty peek buffer, reader at `rest`) immediately after it: whatever
follows — in particular an enclosing container's own terminator, as in the
witness — is untouched. -/
theorem c3_sentinel_scoping (fuel : Nat) (pk : Option Nat) (rest : List Nat)
    (xs : List Value) (kvs : List (List Nat × Value))
    (hxwf : WFbList xs = true) (hxrs : roundSafeList xs = true)
    (hkwf : WFbKVs kvs = true) (hkrs : roundSafeKVs kvs = true)
    (hkasc : keysAscendingb kvs = true)
    (hfl : 2 * (encodeList xs).length + 3 ≤ fuel)
    (hfk : 2 * (encodeKVs kvs).length + 3 ≤ fuel) :
    decodeVal fuel ⟨pk, 59 :: (encodeList xs ++ 127 :: rest)⟩ = (.ok (.list xs), ⟨none, rest⟩)
    ∧ decodeVal fuel ⟨pk, 60 :: (encodeKVs kvs ++ 127 :: rest)⟩ =
        (.ok (.dict kvs), ⟨none, rest⟩) := by
  obtain ⟨f, rfl⟩ : ∃ f, fuel = f + 1 := ⟨fuel - 1, by omega⟩
  constructor
  · rw [decodeVal_listOpenArm f pk,
      (decode_encode_mutual f).2.1 xs (some 59) rest hxwf hxrs (by omega)]
  · rw [decodeVal_dictOpenArm f pk,
      (decode_encode_mutual f).2.2.2.1 kvs (some 60) rest hkwf hkrs (by omega)]
    show (Except.ok (Value.dict (mkBTree kvs)), (⟨none, rest⟩ : Decoder)) =
      (Except.ok (Value.dict kvs), (⟨none, rest⟩ : Decoder))
    rw [mkBTree_keysAscendingb_id kvs hkasc]

/-- C3 (witness): concrete open containers whose input continues with a
parent's terminator byte 127; it is left unread. -/
theorem c3_witness :
    decodeVal 30 ⟨none, 59 :: (encodeList [Value.i64 5] ++ 127 :: [127])⟩ =
      (.ok (.list [Value.i64 5]), ⟨none, [127]⟩)
    ∧ decodeVal 30 ⟨none, 60 :: (encodeKVs [([97], Value.i64 1)] ++ 127 :: [127])⟩ =
      (.ok (.dict [([97], Value.i64 1)]), ⟨none, [127]⟩) :=
  c3_sentinel_scoping 30 none [127] [Value.i64 5] [([97], Value.i64 1)]
    rfl rfl rfl rfl rfl (by decide) (by decide)

/-- C4 (counterexample): with input `[59, 60, 129, 97, 127, 127]` the byte
127 appears as the mandatory *value* of the map entry whose key is `"a"`,
yet `decode` does not fail: the inner map decode raises `EndOfStruct`, the
*enclosing open list* catches it as "no more elements", consumes the
sentinel as its own terminator and decode returns `Ok(List [])`. -/
theorem c4_counterexample : decode [59, 60, 129, 97, 127, 127] = .ok (.list []) := rfl

/-- C4 (amended): a sentinel 127 at the speculative element/key position of
an open container is converted by that container to "no more elements",
consuming the byte as its terminator (conjuncts 1–2). Where a value is
mandatorily expected, the innermost decode fails with the `EndOfStruct`
error kind — not the `Syntax` kind — both for a bare value (conjunct 3) and
for the value slot of a map entry after its key (conjunct 4); at top level
this surfaces as a decode error. But it is not re-raised as a syntax error
by enclosing callers: an enclosing open container's speculative
element/key decode catches the propagated `EndOfStruct` as "no more
elements", so the structure terminates silently instead of failing
(conjunct 5). -/
theorem c4_sentinel_handling :
    (∀ (fuel : Nat) (pk : Option Nat) (rest : List Nat),
        decodeListOpen (fuel + 2) ⟨pk, 127 :: rest⟩ = (.ok [], ⟨none, rest⟩))
    ∧ (∀ (fuel : Nat) (pk : Option Nat) (rest : List Nat),
        decodeDictOpen (fuel + 1) ⟨pk, 127 :: rest⟩ = (.ok [], ⟨none, rest⟩))
    ∧ (∀ (fuel : Nat) (pk : Option Nat) (rest : List Nat),
        decodeVal (fuel + 1) ⟨pk, 127 :: rest⟩ = (.error .endOfStruct, ⟨some 127, rest⟩))
    ∧ (∀ (fuel : Nat) (pk : Option Nat) (rest : List Nat),
        decodeDictOpen (fuel + 2) ⟨pk, 129 :: 97 :: 127 :: rest⟩ =
          (.error .endOfStruct, ⟨some 127, rest⟩))
    ∧ decode [59, 60, 129, 97, 127, 127] = .ok (.list []) :=
  ⟨fun _ _ _ => rfl, fun _ _ _ => rfl, fun _ _ _ => rfl, fun _ _ _ => rfl, rfl⟩

/-- C5: the encoder chooses the string form by byte length: below 64 the
single header byte `128 + length` followed by the raw bytes (length 63 gets
header 191); from 64 on the length as ASCII decimal digits, the `:`
delimiter (58), then the raw bytes (length 64 encodes as `"64:"` = bytes
54, 52, 58, then the data). The digit run really is ASCII decimal: every
byte is a digit and it denotes the length. -/
theorem c5_string_encoding :
    (∀ s : List Nat, s.length < 64 → visit_str s = (128 + s.length) :: s)
    ∧ (∀ s : List Nat, 64 ≤ s.length →
        visit_str s = asciiDigitsOf s.length ++ 58 :: s
        ∧ (∀ b2 ∈ asciiDigitsOf s.length, 48 ≤ b2 ∧ b2 ≤ 57)
        ∧ digitsToNat (asciiDigitsOf s.length) = s.length)
    ∧ (∀ s : List Nat, s.length = 63 → visit_str s = 191 :: s)
    ∧ (∀ s : List Nat, s.length = 64 → visit_str s = 54 :: 52 :: 58 :: s) := by
  refine ⟨?_, ?_, ?_, ?_⟩
  · intro s h; rw [visit_str, if_pos h]
  · intro s h
    rw [visit_str, if_neg (by omega)]
    exact ⟨rfl, (asciiDigitsOf_spec s.length).2.1, (asciiDigitsOf_spec s.length).2.2⟩
  · intro s h
    rw [visit_str, if_pos (by omega), h]
  · intro s h
    rw [visit_str, if_neg (by omega), h]
    rfl

/-- C5 (witness): the boundary instances at lengths 63 and 64. -/
theorem c5_witness :
    visit_str (List.replicate 63 97) = 191 :: List.replicate 63 97
    ∧ visit_str (List.replicate 64 97) = 54 :: 52 :: 58 :: List.replicate 64 97 :=
  ⟨c5_string_encoding.2.2.1 _ (by decide), c5_string_encoding.2.2.2 _ (by decide)⟩

/-- C6: sequences with a known count below 64 use header `192 + count` and
no terminator (a two-element list is `194 :: elem1 ++ elem2`); an unknown
count or a count of 64 or more uses byte 59, the elements, then sentinel
127. Maps are symmetric with threshold 25 and headers `102 + count` / 60,
each entry written key then value. -/
theorem c6_container_encoding :
    (∀ body : List Nat, visit_seq none body = 59 :: body ++ [127])
    ∧ (∀ (n : Nat) (body : List Nat), n < 64 → visit_seq (some n) body = (192 + n) :: body)
    ∧ (∀ (n : Nat) (body : List Nat), 64 ≤ n → visit_seq (some n) body = 59 :: body ++ [127])
    ∧ (∀ body : List Nat, visit_map none body = 60 :: body ++ [127])
    ∧ (∀ (n : Nat) (body : List Nat), n < 25 → visit_map (some n) body = (102 + n) :: body)
    ∧ (∀ (n : Nat) (body : List Nat), 25 ≤ n → visit_map (some n) body = 60 :: body ++ [127])
    ∧ (∀ xs : List Value, xs.length < 64 →
        encode (.list xs) = (192 + xs.length) :: encodeList xs)
    ∧ (∀ xs : List Value, 64 ≤ xs.length →
        encode (.list xs) = 59 :: encodeList xs ++ [127])
    ∧ (∀ kvs : List (List Nat × Value), kvs.length < 25 →
        encode (.dict kvs) = (102 + kvs.length) :: encodeKVs kvs)
    ∧ (∀ kvs : List (List Nat × Value), 25 ≤ kvs.length →
        encode (.dict kvs) = 60 :: encodeKVs kvs ++ [127])
    ∧ (∀ e1 e2 : Value, encode (.list [e1, e2]) = 194 :: (encode e1 ++ (encode e2 ++ [])))
    ∧ (∀ (k : List Nat) (v : Value) (r : List (List Nat × Value)),
        encodeKVs ((k, v) :: r) = visit_str k ++ encode v ++ encodeKVs r) := by
  refine ⟨?_, ?_, ?_, ?_, ?_, ?_, ?_, ?_, ?_, ?_, ?_, ?_⟩
  · intro body; rfl
  · intro n body h; rw [visit_seq, if_pos h]
  · intro n body h; rw [visit_seq, if_neg (by omega)]
  · intro body; rfl
  · intro n body h; rw [visit_map, if_pos h]
  · intro n body h; rw [visit_map, if_neg (by omega)]
  · intro xs h
    rw [show encode (Value.list xs) = visit_seq (some xs.length) (encodeList xs) from rfl,
      visit_seq, if_pos h]
  · intro xs h
    rw [show encode (Value.list xs) = visit_seq (some xs.length) (encodeList xs) from rfl,
      visit_seq, if_neg (by omega)]
  · intro kvs h
    rw [show encode (Value.dict kvs) = visit_map (some kvs.length) (encodeKVs kvs) from rfl,
      visit_map, if_pos h]
  · intro kvs h
    rw [show encode (Value.dict kvs) = visit_map (some kvs.length) (encodeKVs kvs) from rfl,
      visit_map, if_neg (by omega)]
  · intro e1 e2; rfl
  · intro k v r; rfl

/-- C6 (witness): the claim's concrete cases — a 2-element list uses the
fixed header 194, an 80-element list the open form `59 … 127`. -/
theorem c6_witness :
    encode (.list [Value.i64 1, Value.i64 2]) = [194, 1, 2]
    ∧ encode (.list (List.replicate 80 (Value.i64 1))) =
        59 :: encodeList (List.replicate 80 (Value.i64 1)) ++ [127] :=
  ⟨by rw [c6_container_encoding.2.2.2.2.2.2.2.2.2.2.1 (Value.i64 1) (Value.i64 2)]; rfl,
   c6_container_encoding.2.2.2.2.2.2.2.1 _ (by decide)⟩

/-- C7: every fixed-width numeric header byte (62, 63, 64, 65, 66, 44 with
widths 1, 2, 4, 8, 4, 8) followed by fewer payload bytes than the width
requires makes `decode` fail with the premature-end-of-input error kind
`UnexpectedEOF` — it never returns a value. -/
theorem c7_truncation (header w : Nat)
    (hw : (header, w) ∈ ([(62, 1), (63, 2), (64, 4), (65, 8), (66, 4), (44, 8)] :
      List (Nat × Nat)))
    (payload : List Nat) (pk : Option Nat) (fuel : Nat) (hlen : payload.length < w) :
    decodeVal (fuel + 1) ⟨pk, header :: payload⟩ =
      (.error .unexpectedEOF, ⟨some header, []⟩) := by
  simp only [List.mem_cons, List.not_mem_nil, or_false, Prod.mk.injEq] at hw
  rcases hw with ⟨rfl, rfl⟩ | ⟨rfl, rfl⟩ | ⟨rfl, rfl⟩ | ⟨rfl, rfl⟩ | ⟨rfl, rfl⟩ | ⟨rfl, rfl⟩
  · rw [decodeVal_i8Arm]
    simp only [parse_int, read_exact]
    rw [if_neg (by omega)]
  · rw [decodeVal_i16Arm]
    simp only [parse_int, read_exact]
    rw [if_neg (by omega)]
  · rw [decodeVal_i32Arm]
    simp only [parse_int, read_exact]
    rw [if_neg (by omega)]
  · rw [decodeVal_i64Arm]
    simp only [parse_int, read_exact]
    rw [if_neg (by omega)]
  · rw [decodeVal_f32ArmRaw]
    simp only [read_exact]
    rw [if_neg (by omega)]
  · rw [decodeVal_f64ArmRaw]
    simp only [read_exact]
    rw [if_neg (by omega)]

/-- C7 (witness): a bare `I8` header with no payload byte. -/
theorem c7_witness :
    decodeVal 1 ⟨none, [62]⟩ = (.error .unexpectedEOF, ⟨some 62, []⟩) :=
  c7_truncation 62 1 (by decide) [] none 0 (by decide)

/-- C8 (counterexample): the leading byte 48 lies in 45–58, yet decoding
`[48, 58]` (the bytes of `"0:"`) does not fail with a syntax error — 48 is
the ASCII digit `'0'`, which dispatches to the decimal-length string form,
and decode succeeds with the empty string. -/
theorem c8_counterexample : decode [48, 58] = .ok (.str []) := rfl

/-- C8 (amended): only the bytes 45, 46, 47, 58 and 61 of the reserved
range are syntax errors for the leading byte; the bytes 48–57 are ASCII
digits and dispatch to the decimal-length string form instead. -/
theorem c8_reserved_bytes (b : Nat) (fuel : Nat) (pk : Option Nat) (rest : List Nat) :
    (b = 45 ∨ b = 46 ∨ b = 47 ∨ b = 58 ∨ b = 61 →
      decodeVal (fuel + 1) ⟨pk, b :: rest⟩ = (.error .malformed, ⟨some b, rest⟩))
    ∧ (48 ≤ b → b ≤ 57 →
      decodeVal (fuel + 1) ⟨pk, b :: rest⟩ =
        (match parse_string ⟨some b, rest⟩ with
         | (.ok s, d2) => (.ok (.str s), d2)
         | (.error e, d2) => (.error e, d2))) := by
  constructor
  · intro hb
    rcases hb with rfl | rfl | rfl | rfl | rfl <;> rfl
  · intro h1 h2
    exact decodeVal_digitArm fuel pk b rest h1 h2

/-- C8 (witness): the reserved byte 61 is a syntax error. -/
theorem c8_witness :
    decodeVal 1 ⟨none, [61]⟩ = (.error .malformed, ⟨some 61, []⟩) :=
  (c8_reserved_bytes 61 0 none []).1 (by decide)

/-- C9: building a `BTreeMap` by insertion always yields entries in strictly
ascending key order, and two maps with the same key/value lookups — no
matter the insertion order they were built in — encode to identical byte
sequences. -/
theorem c9_map_key_determinism :
    (∀ l : List (List Nat × Value), List.Pairwise entryLt (mkBTree l))
    ∧ (∀ l1 l2 : List (List Nat × Value),
        (∀ k, alookup k (mkBTree l1) = alookup k (mkBTree l2)) →
        encode (.dict (mkBTree l1)) = encode (.dict (mkBTree l2))) := by
  refine ⟨mkBTree_pairwise, ?_⟩
  intro l1 l2 hext
  rw [sorted_alookup_ext (mkBTree l1) (mkBTree l2)
    (mkBTree_pairwise l1) (mkBTree_pairwise l2) hext]

/-- C9 (witness): the same two entries inserted in either order produce the
same bytes. -/
theorem c9_witness :
    encode (.dict (mkBTree [([98], Value.i64 2), ([97], Value.i64 1)])) =
      encode (.dict (mkBTree [([97], Value.i64 1), ([98], Value.i64 2)])) :=
  c9_map_key_determinism.2 _ _ (fun _ => rfl)

/-- C10: whenever decoding into a Generic Value succeeds — for any byte
input, at any fuel, from any decoder state — the resulting value tree
contains no `U64` node: every integer typecode is delivered through the
signed-integer visitor path and surfaces as `I64`. -/
theorem c10_no_u64 :
    (∀ (fuel : Nat) (d : Decoder) (v : Value) (d2 : Decoder),
        decodeVal fuel d = (.ok v, d2) → noU64 v = true)
    ∧ (∀ (input : List Nat) (v : Value), decode input = .ok v → noU64 v = true) := by
  constructor
  · intro fuel d v d2 h
    exact (decode_noU64_mutual fuel).1 d v d2 h
  · intro input v h
    rw [decode] at h
    exact (decode_noU64_mutual _).1 _ v _ (Prod.ext h rfl)

/-- C10 (witness): a decoded fixed list of one embedded integer. -/
theorem c10_witness : noU64 (Value.list [Value.i64 5]) = true :=
  c10_no_u64.2 [193, 5] (Value.list [Value.i64 5]) rfl

end Rencode
